import Mathlib

/-!
Verification development for the freebck backup/restore engine.

The Rust sources are shallowly embedded: bytes are naturals below 256
(`u8` arithmetic is taken modulo 256 where it matters), the
content-addressed store is an association list with write-once
semantics, fallible operations return `Except`, and the concurrent
tree walks are linearized into sequential recursions that thread the
store state.  SHA-256 is treated as an abstract digest parameter
`hash : List Nat → String`; collision-freedom, where a proof needs it,
is an explicit injectivity hypothesis.
-/

namespace Freebck

deriving instance DecidableEq for Except

/-! ## Error kinds

Mirrors `std::io::ErrorKind` values used by the sources and the
`CommandErrorKind` taxonomy of `src/cmd/common.rs`. -/
inductive IoErrorKind where
  | alreadyExists
  | notFound
  | invalidInput
  deriving DecidableEq, Repr

inductive CommandErrorKind where
  | user
  | fileSystemConflict
  | corrupt
  | program
  | system
  deriving DecidableEq, Repr

/-! ## Bytes and the blob store

A stored item is a byte string; a collection is an association list
from keys to contents.  `List.lookup` models a filesystem probe. -/
abbrev Bytes := List Nat

abbrev Store := List (String × Bytes)

/-- Store extension: keys present (with their contents) stay present.
Backup only ever adds blobs, so every store it produces extends its input. -/
def Extends (s t : Store) : Prop := ∀ k v, s.lookup k = some v → t.lookup k = some v

/-! ## `src/storage/util.rs` -/
/-- Embeds `nibble_char` of `src/storage/util.rs`: maps a value below 16 to
its lowercase hex digit (as a character code). -/
def nibble_char (nibble : Nat) : Nat :=
  if nibble < 0xA then nibble + 48 else nibble - 0xA + 97

/-- Embeds `xor_byte_hash` of `src/storage/util.rs`: every input byte is
shifted left by `i % 8` (wrapping in `u8`, hence `% 256`) and, when the
rotation is nonzero, its spilled high bits re-enter from the right; all
contributions are XORed into one byte, rendered as two lowercase hex digits. -/
def xor_byte_hash (data : Bytes) : String :=
  let output := data.enum.foldl
    (fun output p =>
      let i := p.1
      let b := p.2 % 256
      let o1 := Nat.xor output ((b <<< (i % 8)) % 256)
      if i % 8 != 0 then Nat.xor o1 (b >>> (8 - i % 8)) else o1)
    0
  String.mk [Char.ofNat (nibble_char ((output >>> 4) &&& 0xF)),
             Char.ofNat (nibble_char (output &&& 0xF))]

/-- Character codes of a string, the byte view the Rust code takes of an
ASCII key (`str::as_bytes`). -/
def strBytes (s : String) : Bytes := s.toList.map Char.toNat

/-! ## `src/storage/file.rs` -/
inductive Collection where
  | snapshot
  | blob
  deriving DecidableEq, Repr

/-- Embeds `get_collection_path` of `src/storage/file.rs`. Paths are lists
of components below the storage root. -/
def get_collection_path (collection : Collection) : List String :=
  match collection with
  | .snapshot => ["snapshot"]
  | .blob => ["blob"]

/-- Embeds `get_item_path` of `src/storage/file.rs`: keys of byte length at
most 2 are rejected with `InvalidInput`; otherwise the item lives at
`<collection>/<key[0..2]>/<key[2..]>`. -/
def get_item_path (collection : Collection) (key : String) :
    Except IoErrorKind (List String) :=
  if key.length ≤ 2 then
    .error .invalidInput
  else
    .ok (get_collection_path collection ++ [⟨key.toList.take 2⟩, ⟨key.toList.drop 2⟩])

/-- Embeds the `Drop` impl of `RenameOnDropFile` (`src/storage/file.rs`):
when the write handle is released, whatever bytes have reached the temp
file are renamed onto the final path; if the final path is already
occupied the rename failure is only logged.  `written` is the byte
prefix that made it into the temp file before the handle was dropped. -/
def rename_on_drop (final_path : String) (written : Bytes) (disk : Store) : Store :=
  if (disk.lookup final_path).isSome then disk
  else (final_path, written) :: disk

/-! ## The directory tree data model (`src/data`, protobuf messages)

`FileEntry`, `DirEntry`, `SubDirEntry` and `Snapshot` mirror the
generated message types used by `src/cmd/backup.rs` and
`src/cmd/restore.rs`. -/
structure FileEntry where
  name : String
  content_hash : String
  chunk_hash : List String
  size : Nat
  modified : Int
  deriving DecidableEq, Repr

mutual
inductive DirEntry where
  | mk (sub_dir : List SubDirEntry) (file : List FileEntry) (size : Nat)
inductive SubDirEntry where
  | mk (name : String) (content : Option Content)
inductive Content where
  | inline (d : DirEntry)
  | hash (h : String)
end

def DirEntry.sub_dir : DirEntry → List SubDirEntry
  | .mk s _ _ => s

def DirEntry.file : DirEntry → List FileEntry
  | .mk _ f _ => f

def DirEntry.size : DirEntry → Nat
  | .mk _ _ n => n

def SubDirEntry.name : SubDirEntry → String
  | .mk n _ => n

def SubDirEntry.content : SubDirEntry → Option Content
  | .mk _ c => c

structure Snapshot where
  root_hash : String
  started : Int
  finished : Int
  deriving DecidableEq, Repr

/-! ## The filesystem model

A directory tree: regular files carry their bytes and modified-time,
directories carry children.  Anything else (symlinks, devices) is a
fatal error in `backup_dir` and is left out of the model. -/
inductive FsTree where
  | file (name : String) (content : Bytes) (modified : Int)
  | dir (name : String) (children : List FsTree)

def FsTree.name : FsTree → String
  | .file n _ _ => n
  | .dir n _ => n

/-! ## Store operations as the `cmd` layer sees them

`src/cmd/backup.rs` and `src/cmd/restore.rs` call the `Storage` trait
through a byte-buffer interface whose implementation is not part of
these sources; the contract of section 4.1 of the design fixes its
behaviour. -/
/-- Modelled from the spec: the `Storage::write(collection, key, bytes)`
call used by the cmd layer (its trait-side implementation is not among
the sources; spec 4.1: durably persists the bytes under the key, fails
with `AlreadyExists` if the key already has content). -/
def storage_write (st : Store) (key : String) (v : Bytes) :
    Except IoErrorKind Store :=
  if (st.lookup key).isSome then .error .alreadyExists
  else .ok ((key, v) :: st)

/-- Embeds the `ignore_already_exists` adapter of `src/cmd/backup.rs`
composed with `storage_write`: a duplicate write leaves the store
unchanged and is treated as success. -/
def storage_write_dedup (st : Store) (key : String) (v : Bytes) : Store :=
  match storage_write st key v with
  | .ok st' => st'
  | .error _ => st

/-- Modelled from the spec: `Storage::read(collection, key, &mut buf)`
(spec 4.1: yields the stored content, `NotFound` when absent). -/
def storage_read (st : Store) (key : String) : Except IoErrorKind Bytes :=
  match st.lookup key with
  | some v => .ok v
  | none => .error .notFound

/-- Embeds `get_dir_entry` of `src/cmd/common.rs`: fetch a blob and decode
it as a `DirEntry`.  The binary codec is an opaque contract, so decoding
is a parameter; a read failure maps to `System`, a decode failure to
`Corrupt`. -/
def get_dir_entry (decode : Bytes → Option DirEntry) (st : Store) (h : String) :
    Except CommandErrorKind DirEntry :=
  match storage_read st h with
  | .error _ => .error .system
  | .ok bytes =>
    match decode bytes with
    | some d => .ok d
    | none => .error .corrupt

/-! ## `backup_file` (`src/cmd/backup.rs`, lines 290-374) -/
/-- Embeds the chunking loop of `backup_file`: the file is read in
fixed-size windows of `chunkSize` bytes until a read returns nothing.
The fuel argument (instantiated with the byte count) bounds the loop;
it never runs out because `CHUNK_SIZE` is positive, so every round
consumes at least one byte. -/
def chunksAux (chunkSize : Nat) : Nat → Bytes → List Bytes
  | _, [] => []
  | 0, _ => []
  | fuel + 1, content => content.take chunkSize :: chunksAux chunkSize fuel (content.drop chunkSize)

/-- The fixed-size windows of a byte string, in file order. -/
def chunks (chunkSize : Nat) (content : Bytes) : List Bytes :=
  chunksAux chunkSize content.length content

/-- Embeds the chunk upload loop of `backup_file`: hash each window,
write it to the Blob collection (duplicates absorbed), collect the
hashes in order. -/
def upload_chunks (hash : Bytes → String) (cs : List Bytes) (st : Store) :
    List String × Store :=
  match cs with
  | [] => ([], st)
  | c :: rest =>
    let st' := storage_write_dedup st (hash c) c
    let (hs, st'') := upload_chunks hash rest st'
    (hash c :: hs, st'')

/-- Embeds `backup_file` of `src/cmd/backup.rs`.  `content` and
`modified` stand for what the filesystem returns for the file (its size
is the byte count), `previous_snapshot` is the previous `FileEntry` for
the same name.  Tier 1: size and modified-time both match the previous
entry, which is returned verbatim.  Tier 2: the whole-file hash matches
the previous `content_hash`, so the previous chunk list is reused with
the fresh size and modified-time.  Tier 3: chunk, hash and upload. -/
def backup_file (hash : Bytes → String) (chunkSize : Nat) (name : String)
    (content : Bytes) (modified : Int) (previous_snapshot : Option FileEntry)
    (st : Store) : FileEntry × Store :=
  let size := content.length
  let afterMeta : Unit ⊕ (FileEntry × Store) :=
    match previous_snapshot with
    | some p => if p.modified = modified ∧ p.size = size then .inr (p, st) else .inl ()
    | none => .inl ()
  match afterMeta with
  | .inr r => r
  | .inl () =>
    let content_hash := hash content
    let afterHash : Unit ⊕ (FileEntry × Store) :=
      match previous_snapshot with
      | some p =>
        if p.content_hash = content_hash then
          .inr (⟨name, content_hash, p.chunk_hash, size, modified⟩, st)
        else .inl ()
      | none => .inl ()
    match afterHash with
    | .inr r => r
    | .inl () =>
      let (chunk_hashes, st') := upload_chunks hash (chunks chunkSize content) st
      (⟨name, content_hash, chunk_hashes, size, modified⟩, st')

/-! ## `restore_file` (`src/cmd/restore.rs`, lines 152-264) -/
/-- Embeds the `RestoreArgs` flags of `src/cmd/restore.rs`. -/
structure RestoreArgs where
  keep_going : Bool
  no_override_files : Bool
  deriving DecidableEq, Repr

/-- What the filesystem reports for a path that may already hold a file:
its bytes, and the modified-time probe (`none` when `metadata.modified()`
fails).  `none` at the outer level covers every `fs::metadata` error,
which the code treats as the file being absent. -/
structure ExistingFile where
  content : Bytes
  modified : Option Int
  deriving DecidableEq, Repr

inductive Matches where
  | doesNotExist
  | isMatch
  | doesNotMatch
  deriving DecidableEq, Repr

/-- Embeds the `existing_matches` computation of `restore_file`
(`src/cmd/restore.rs` lines 173-205): a failing modified-time probe is
`DoesNotMatch`; the existing file counts as matching unless its size
differs from the entry AND its modified-time differs from the entry. -/
def existing_matches (entry : FileEntry) (existing : Option ExistingFile) : Matches :=
  match existing with
  | none => .doesNotExist
  | some ef =>
    match ef.modified with
    | none => .doesNotMatch
    | some em =>
      if ef.content.length ≠ entry.size ∧ em ≠ entry.modified then .doesNotMatch
      else .isMatch

/-- Embeds the `OpenOptions` setup of `restore_file` (`src/cmd/restore.rs`
lines 219-226): with `no_override_files` set the file is opened
create+truncate, otherwise create-new. -/
structure OpenOptions where
  create_truncate : Bool
  create_new : Bool
  deriving DecidableEq, Repr

def restore_open_options (args : RestoreArgs) : OpenOptions :=
  if args.no_override_files then ⟨true, false⟩ else ⟨false, true⟩

/-- A file produced by `restore_file`: the bytes written plus the
modified-time stamped onto it afterwards. -/
structure RestoredFile where
  content : Bytes
  modified : Int
  deriving DecidableEq, Repr

inductive RestoreFileResult where
  | skipped
  | written (f : RestoredFile)
  deriving DecidableEq, Repr

/-- Embeds the chunk loop of `restore_file` (`src/cmd/restore.rs` lines
233-250): one buffer is reused across iterations; a successful read
fills it with the chunk, a failed read under `keep_going` leaves it
holding the previous contents, a failed read otherwise aborts with the
`Program`-kind "Aborted" error produced by `keep_going_or_err`.  Every
iteration appends the buffer to the target file. -/
def read_chunks (keep_going : Bool) (st : Store) :
    List String → Bytes → Bytes → Except CommandErrorKind Bytes
  | [], _, written => .ok written
  | h :: rest, buffer, written =>
    match storage_read st h with
    | .ok content => read_chunks keep_going st rest content (written ++ content)
    | .error _ =>
      if keep_going then read_chunks keep_going st rest buffer (written ++ buffer)
      else .error .program

/-- Embeds `restore_file` of `src/cmd/restore.rs`: compare against the
existing file, enforce the overwrite policy, open the target, stream the
chunks, stamp the recorded modified-time. -/
def restore_file (args : RestoreArgs) (entry : FileEntry)
    (existing : Option ExistingFile) (st : Store) :
    Except CommandErrorKind RestoreFileResult :=
  let write_out : Except CommandErrorKind RestoreFileResult :=
    if (restore_open_options args).create_new ∧ existing.isSome then
      .error .system
    else
      match read_chunks args.keep_going st entry.chunk_hash [] [] with
      | .ok bytes => .ok (.written ⟨bytes, entry.modified⟩)
      | .error e => .error e
  match existing_matches entry existing with
  | .isMatch => .ok .skipped
  | .doesNotMatch =>
    if args.no_override_files then .error .fileSystemConflict
    else write_out
  | .doesNotExist => write_out

/-! ## The snapshot registrar (`src/cmd/backup.rs`, lines 120-183) -/
/-- Splits a character list at every separator, as Rust's
`str::split('/')` does: adjacent separators yield empty segments and the
empty input yields one empty segment. -/
def splitChars (sep : Char) : List Char → List (List Char)
  | [] => [[]]
  | c :: rest =>
    if c = sep then [] :: splitChars sep rest
    else
      match splitChars sep rest with
      | g :: gs => (c :: g) :: gs
      | [] => [[c]]

def split_slash (s : String) : List String :=
  (splitChars '/' s.toList).map fun cs => ⟨cs⟩

/-- Embeds Rust's `str::parse::<u32>`: an optional leading plus sign, one
or more decimal digits, value below 2^32; anything else is an error. -/
def parse_u32 (s : String) : Option Nat :=
  let cs := match s.toList with
    | '+' :: rest => rest
    | cs => cs
  if cs.isEmpty then none
  else if cs.all Char.isDigit then
    let v := cs.foldl (fun a c => a * 10 + (c.toNat - 48)) 0
    if v < 4294967296 then some v else none
  else none

/-- Embeds `get_highest_snapshot_number` of `src/cmd/backup.rs`: scan the
Snapshot collection keys, keep those of the form `<archive>/<number>`
for this archive, and track the maximum number seen (0 when none). -/
def get_highest_snapshot_number (archive : String) (items : List String) : Nat :=
  items.foldl
    (fun highest name =>
      match split_slash name with
      | [a, num] =>
        if a ≠ archive then highest
        else
          match parse_u32 num with
          | some n => max highest n
          | none => highest
      | _ => highest)
    0

/-- The key the registration attempt of `backup` writes:
`<archive>/<highest+1>`, with the `u32` increment wrapping as in a
release build. -/
def next_snapshot_key (archive : String) (items : List String) : String :=
  archive ++ "/" ++ Nat.repr ((get_highest_snapshot_number archive items + 1) % 4294967296)

/-- Outcome of one snapshot write attempt inside the retry loop of
`backup`, abstracting over the concurrently-changing store. -/
inductive WriteOutcome where
  | ok
  | alreadyExists
  | otherErr
  deriving DecidableEq, Repr

/-- Result of the registration loop: which attempt registered the
snapshot, which attempt failed fatally, or budget exhaustion (the
`Program`-kind error after the loop). -/
inductive RegisterResult where
  | complete (attempt : Nat)
  | fatalWrite (attempt : Nat)
  | retryBudgetExhausted
  deriving DecidableEq, Repr

def MAX_LOOP_ITERATIONS : Nat := 100

/-- Embeds the snapshot registration loop of `backup` (`src/cmd/backup.rs`
lines 120-158): up to `MAX_LOOP_ITERATIONS` rounds of re-enumerating and
re-attempting the snapshot write; `outcome i` is what the store answers
to the write of attempt `i`. -/
def register_snapshot_aux (outcome : Nat → WriteOutcome) :
    Nat → Nat → RegisterResult
  | 0, _ => .retryBudgetExhausted
  | fuel + 1, i =>
    match outcome i with
    | .ok => .complete i
    | .alreadyExists => register_snapshot_aux outcome fuel (i + 1)
    | .otherErr => .fatalWrite i

def register_snapshot (outcome : Nat → WriteOutcome) : RegisterResult :=
  register_snapshot_aux outcome MAX_LOOP_ITERATIONS 0

/-! ## Name ordering

Rust's `sort_by(|a, b| a.name.cmp(&b.name))` sorts by byte-wise
lexicographic order; on UTF-8 this agrees with code-point order. -/
def charListLe : List Char → List Char → Bool
  | [], _ => true
  | _ :: _, [] => false
  | c :: cs, d :: ds =>
    if c.toNat < d.toNat then true
    else if d.toNat < c.toNat then false
    else charListLe cs ds

def strLe (a b : String) : Bool := charListLe a.toList b.toList

/-! ## `backup_dir` (`src/cmd/backup.rs`, lines 185-286)

The concurrent fan-out over one directory's entries is linearized:
children are processed in directory order, threading the store; the
emitted `sub_dir` and `file` sequences are then sorted by name exactly
as the source does after its join. -/
/-- Lookup in the by-name index `previous_files` built by `backup_dir`. -/
def prev_file_entry (prev : Option DirEntry) (n : String) : Option FileEntry :=
  match prev with
  | some d => d.file.find? fun fe => fe.name = n
  | none => none

/-- Lookup in the by-name index `previous_sub_dirs` built by `backup_dir`. -/
def prev_sub_entry (prev : Option DirEntry) (n : String) : Option SubDirEntry :=
  match prev with
  | some d => d.sub_dir.find? fun sd => sd.name = n
  | none => none

/-- Embeds the previous-subtree resolution of `backup_dir`: an `Inline`
previous child is reused directly, a `Hash` child is fetched from the
Blob collection, an absent or empty child gives no baseline. -/
def resolve_prev_sub (decode : Bytes → Option DirEntry) (st : Store) :
    Option SubDirEntry → Except CommandErrorKind (Option DirEntry)
  | none => .ok none
  | some sd =>
    match sd.content with
    | some (.inline d) => .ok (some d)
    | some (.hash h) =>
      match get_dir_entry decode st h with
      | .ok d => .ok (some d)
      | .error e => .error e
    | none => .ok none

mutual

def backup_dir (hash : Bytes → String) (chunkSize : Nat)
    (decode : Bytes → Option DirEntry) (children : List FsTree)
    (prev : Option DirEntry) (st : Store) :
    Except CommandErrorKind (DirEntry × Store) :=
  match backup_children hash chunkSize decode children prev st with
  | .error e => .error e
  | .ok (subs, files, st') =>
    let size := (subs.map Prod.snd).sum + (files.map FileEntry.size).sum
    .ok (⟨(subs.map Prod.fst).mergeSort (fun a b => strLe a.name b.name),
          files.mergeSort (fun a b => strLe a.name b.name),
          size⟩, st')
termination_by (sizeOf children, 1)

def backup_children (hash : Bytes → String) (chunkSize : Nat)
    (decode : Bytes → Option DirEntry) (children : List FsTree)
    (prev : Option DirEntry) (st : Store) :
    Except CommandErrorKind (List (SubDirEntry × Nat) × List FileEntry × Store) :=
  match children with
  | [] => .ok ([], [], st)
  | .file n bytes mtime :: rest =>
    let (fe, st') := backup_file hash chunkSize n bytes mtime (prev_file_entry prev n) st
    (match backup_children hash chunkSize decode rest prev st' with
     | .error e => .error e
     | .ok (subs, files, st'') => .ok (subs, fe :: files, st''))
  | .dir n ch :: rest =>
    (match resolve_prev_sub decode st (prev_sub_entry prev n) with
     | .error e => .error e
     | .ok prevd =>
       match backup_dir hash chunkSize decode ch prevd st with
       | .error e => .error e
       | .ok (d, st') =>
         match backup_children hash chunkSize decode rest prev st' with
         | .error e => .error e
         | .ok (subs, files, st'') =>
           .ok ((⟨n, some (.inline d)⟩, d.size) :: subs, files, st''))
termination_by (sizeOf children, 0)

end

/-! ## `restore_dir` (`src/cmd/restore.rs`, lines 71-150)

Restoration into a target that starts empty: every directory it walks
into was just created, so the per-file probe of the existing target
finds nothing (`existing = none`).  The recursion over stored
`DirEntry` values is bounded by an explicit `fuel` budget, since a
`Hash` child is fetched and decoded rather than taken from the value
itself; any fuel above the tree depth is enough. -/
/-- Embeds the file loop of `restore_dir`: each `FileEntry` is restored
concurrently with siblings; a child failure is absorbed ("log and
continue") under `keep_going` and otherwise aborts the join with the
`Program`-kind "Aborted" error. -/
def restore_files (args : RestoreArgs) (fes : List FileEntry) (st : Store) :
    Except CommandErrorKind (List FsTree) :=
  match fes with
  | [] => .ok []
  | fe :: rest =>
    match restore_file args fe none st with
    | .ok (.written f) =>
      (match restore_files args rest st with
       | .ok rest' => .ok (.file fe.name f.content f.modified :: rest')
       | .error e => .error e)
    | .ok .skipped =>
      -- A skip needs a matching pre-existing file; the target is empty,
      -- so this branch is dead (restore_file with `existing = none`
      -- never skips) and contributes nothing.
      restore_files args rest st
    | .error _ =>
      if args.keep_going then restore_files args rest st
      else .error .program

mutual

def restore_dir (decode : Bytes → Option DirEntry) (args : RestoreArgs)
    (fuel : Nat) (d : DirEntry) (st : Store) :
    Except CommandErrorKind (List FsTree) :=
  match restore_sub_dirs decode args fuel d.sub_dir st with
  | .error e => .error e
  | .ok subs =>
    match restore_files args d.file st with
    | .error e => .error e
    | .ok files => .ok (subs ++ files)
termination_by (fuel, 1, 0)

def restore_sub_dirs (decode : Bytes → Option DirEntry) (args : RestoreArgs)
    (fuel : Nat) (sds : List SubDirEntry) (st : Store) :
    Except CommandErrorKind (List FsTree) :=
  match sds with
  | [] => .ok []
  | sd :: rest =>
    match sd.content with
    | none => .error .corrupt
    | some c =>
      match (match c with
             | .inline d' => Except.ok d'
             | .hash h => get_dir_entry decode st h) with
      | .error e => .error e
      | .ok d' =>
        match fuel, rest with
        | 0, _ => .error .program
        | fuel' + 1, rest =>
          match restore_dir decode args fuel' d' st with
          | .ok ts =>
            (match restore_sub_dirs decode args (fuel' + 1) rest st with
             | .ok rest' => .ok (.dir sd.name ts :: rest')
             | .error e => .error e)
          | .error _ =>
            if args.keep_going then restore_sub_dirs decode args (fuel' + 1) rest st
            else .error .program
termination_by (fuel, 0, sizeOf sds)

end

/-! ## Observations on trees

Path lookup of files and directories, and the well-formedness predicate
(sibling names unique) that any on-disk tree satisfies. -/
def findNode (ts : List FsTree) (n : String) : Option FsTree :=
  ts.find? fun t => t.name = n

/-- The bytes of the file at a relative path, `none` when the path does
not name a file. -/
def fileAt : List FsTree → List String → Option Bytes
  | _, [] => none
  | ts, [n] =>
    match findNode ts n with
    | some (.file _ b _) => some b
    | _ => none
  | ts, n :: rest =>
    match findNode ts n with
    | some (.dir _ ch) => fileAt ch rest
    | _ => none

/-- Whether a relative path names a directory (the empty path is the
root). -/
def dirAt : List FsTree → List String → Bool
  | _, [] => true
  | ts, n :: rest =>
    match findNode ts n with
    | some (.dir _ ch) => dirAt ch rest
    | _ => false

mutual

def uniqueTree : FsTree → Bool
  | .file _ _ _ => true
  | .dir _ ch => decide ((ch.map FsTree.name).Nodup) && uniqueChildren ch

def uniqueChildren : List FsTree → Bool
  | [] => true
  | t :: ts => uniqueTree t && uniqueChildren ts

end

/-- Sibling names are distinct at every level: what any actual directory
tree satisfies, since a directory cannot hold two entries of one name. -/
def uniqueForest (ts : List FsTree) : Bool :=
  decide ((ts.map FsTree.name).Nodup) && uniqueChildren ts

mutual

def treeDepth : FsTree → Nat
  | .file _ _ _ => 0
  | .dir _ ch => forestDepth ch + 1

def forestDepth : List FsTree → Nat
  | [] => 0
  | t :: ts => max (treeDepth t) (forestDepth ts)

end

/-! ## Store lemmas -/
/-- Every blob is stored under the digest of its own bytes: the invariant
content-addressing maintains for the Blob collection. -/
def StoreHashed (hash : Bytes → String) (st : Store) : Prop :=
  ∀ k v, st.lookup k = some v → k = hash v

/-! ## Tree correspondence

`ForestSim ts us` says the two forests expose the same names at every
level, files with identical bytes and modified-times.  It is exactly
what survives the name-sorting that `backup_dir` applies, and it
entails agreement of `fileAt` and `dirAt` on every path. -/
mutual

inductive TreeSim : FsTree → FsTree → Prop where
  | file (n : String) (b : Bytes) (m : Int) : TreeSim (.file n b m) (.file n b m)
  | dir (n : String) (ch ch' : List FsTree) :
      ForestSim ch ch' → TreeSim (.dir n ch) (.dir n ch')

inductive ForestSim : List FsTree → List FsTree → Prop where
  | mk (ts us : List FsTree) :
      (∀ n, (findNode ts n).isSome ↔ (findNode us n).isSome) →
      (∀ n t u, findNode ts n = some t → findNode us n = some u → TreeSim t u) →
      ForestSim ts us

end

/-! ## Small helpers on forests and lookups -/
def isDirB : FsTree → Bool
  | .dir _ _ => true
  | .file _ _ _ => false

/-- The sub-directory children of a directory listing, in listing order. -/
def dirChildren (ts : List FsTree) : List FsTree := ts.filter isDirB

/-- The regular-file children of a directory listing, in listing order. -/
def fileChildren (ts : List FsTree) : List FsTree := ts.filter fun t => !isDirB t

/-- The `FileEntry` that `backup_file` emits for a fresh file. -/
def fileEntryOf (hash : Bytes → String) (chunkSize : Nat) (n : String) (b : Bytes)
    (m : Int) : FileEntry :=
  ⟨n, hash b, (chunks chunkSize b).map hash, b.length, m⟩

/-- A stored `DirEntry` restores, with any sufficient recursion budget,
to a forest name-equivalent to `ts`. -/
def RestoresTo (decode : Bytes → Option DirEntry) (args : RestoreArgs) (d : DirEntry)
    (st : Store) (ts : List FsTree) : Prop :=
  ∀ fuel, forestDepth ts ≤ fuel →
    ∃ restored, restore_dir decode args fuel d st = .ok restored ∧ ForestSim ts restored

/-- Everything the per-child phase of `backup_dir` (with an empty
baseline) guarantees about its output lists and the store it leaves
behind. -/
def BackedUp (hash : Bytes → String) (chunkSize : Nat)
    (decode : Bytes → Option DirEntry) (children : List FsTree)
    (st₀ st₁ : Store) (subs : List (SubDirEntry × Nat))
    (files : List FileEntry) : Prop :=
  StoreHashed hash st₁ ∧ Extends st₀ st₁ ∧
  files.map FileEntry.name = (fileChildren children).map FsTree.name ∧
  subs.map (fun q => q.1.name) = (dirChildren children).map FsTree.name ∧
  (∀ fe ∈ files, ∃ n b m, fe = fileEntryOf hash chunkSize n b m ∧
      FsTree.file n b m ∈ children ∧
      ∀ c ∈ chunks chunkSize b, ((st₁.lookup (hash c)).isSome)) ∧
  (∀ q ∈ subs, ∃ d', q.1.content = some (.inline d') ∧
      ∀ ch, FsTree.dir q.1.name ch ∈ children →
        ∀ args st₂, Extends st₁ st₂ → StoreHashed hash st₂ →
          RestoresTo decode args d' st₂ ch)

/-- An injective digest usable to instantiate the abstract hash on
concrete inputs: the length of the output string encodes the input. -/
def witHash (l : Bytes) : String :=
  String.mk (List.replicate (Encodable.encode l) 'a')

/-! ## The `FileEntry` invariant (backup tiers) -/
/-- Fetch, in order, every chunk named by a hash list; `none` when any
chunk is missing from the Blob collection. -/
def resolveChunks (st : Store) : List String → Option (List Bytes)
  | [] => some []
  | h :: rest =>
    match st.lookup h, resolveChunks st rest with
    | some b, some bs => some (b :: bs)
    | _, _ => none

/-- The data-model invariant of `FileEntry`: the chunks named by
`chunk_hash` all resolve, their concatenation has exactly `size` bytes,
and its digest is `content_hash`. -/
def EntryConsistent (hash : Bytes → String) (st : Store) (e : FileEntry) : Prop :=
  ∃ bs : List Bytes, resolveChunks st e.chunk_hash = some bs ∧
    bs.flatten.length = e.size ∧ hash bs.flatten = e.content_hash

/-! ## Snapshot registration properties -/
abbrev SnapStore := List (String × Snapshot)

/-- Modelled from the spec: the snapshot-collection write used by the
registrar (spec 4.1 write-once semantics; `src/storage/file.rs` checks
the final path and fails with `AlreadyExists` when it is occupied). -/
def snapshot_write (st : SnapStore) (key : String) (v : Snapshot) :
    Except IoErrorKind SnapStore :=
  if (st.lookup key).isSome then .error .alreadyExists
  else .ok ((key, v) :: st)

/-! ## Theorems -/

theorem Extends.refl (s : Store) : Extends s s := fun _ _ h => h

theorem Extends.trans {s t u : Store} (h1 : Extends s t) (h2 : Extends t u) :
    Extends s u := fun k v h => h2 k v (h1 k v h)

/-- The unit test of `src/storage/util.rs` pins this value, anchoring the
embedding of `xor_byte_hash` to the source. -/
theorem xor_byte_hash_hello : xor_byte_hash (strBytes "Hello World!") = "f2" := by decide

/-- Second anchor from the same unit test: a change in the first byte
changes the output. -/
theorem xor_byte_hash_xello : xor_byte_hash (strBytes "Xello World!") = "e2" := by decide

theorem storeHashed_nil (hash : Bytes → String) : StoreHashed hash [] := by
  intro k v h
  simp [List.lookup] at h

theorem lookup_cons_store (k k' : String) (v : Bytes) (st : Store) :
    ((k, v) :: st : Store).lookup k' = if k' = k then some v else st.lookup k' := by
  by_cases h : k' = k
  · subst h
    simp [List.lookup]
  · have hb : (k' == k) = false := beq_eq_false_iff_ne.mpr h
    simp [List.lookup, hb, h]

theorem storage_write_dedup_extends (st : Store) (k : String) (v : Bytes) :
    Extends st (storage_write_dedup st k v) := by
  intro k' v' h
  unfold storage_write_dedup storage_write
  by_cases hk : (st.lookup k).isSome
  · simp [hk, h]
  · simp only [hk, Bool.false_eq_true, if_false, lookup_cons_store]
    split
    · next heq =>
      subst heq
      rw [h] at hk
      simp at hk
    · exact h

theorem storage_write_dedup_hashed (hash : Bytes → String) (st : Store)
    (c : Bytes) (hst : StoreHashed hash st) :
    StoreHashed hash (storage_write_dedup st (hash c) c) := by
  intro k v h
  unfold storage_write_dedup storage_write at h
  by_cases hk : (st.lookup (hash c)).isSome
  · rw [if_pos hk] at h
    exact hst k v h
  · rw [if_neg hk] at h
    simp only [lookup_cons_store] at h
    split at h
    · next heq =>
      cases h
      exact heq
    · exact hst k v h

theorem storage_write_dedup_present (st : Store) (k : String) (v : Bytes) :
    ((storage_write_dedup st k v).lookup k).isSome := by
  unfold storage_write_dedup storage_write
  by_cases hk : (st.lookup k).isSome
  · simp [hk]
  · simp [hk, lookup_cons_store]

/-- In a hashed store without digest collisions, a present key `hash c`
can only hold `c` itself. -/
theorem hashed_lookup (hash : Bytes → String) (st : Store) (c : Bytes)
    (hst : StoreHashed hash st) (hinj : Function.Injective hash)
    (hp : (st.lookup (hash c)).isSome) : st.lookup (hash c) = some c := by
  obtain ⟨v, hv⟩ := Option.isSome_iff_exists.mp hp
  have := hst _ _ hv
  have hvc : v = c := hinj this.symm
  rw [hv, hvc]

/-! ## Chunking lemmas -/
theorem chunksAux_flatten (chunkSize : Nat) (hcs : 0 < chunkSize) :
    ∀ fuel content, List.length content ≤ fuel →
      (chunksAux chunkSize fuel content).flatten = content := by
  intro fuel
  induction fuel with
  | zero =>
    intro content hlen
    have : content = [] := List.eq_nil_of_length_eq_zero (Nat.le_zero.mp hlen)
    subst this
    simp [chunksAux]
  | succ fuel ih =>
    intro content hlen
    match content with
    | [] => simp [chunksAux]
    | b :: rest =>
      have hlt : List.length (List.drop chunkSize (b :: rest)) ≤ fuel := by
        rw [List.length_drop]
        simp only [List.length_cons] at hlen ⊢
        omega
      simp only [chunksAux, List.flatten_cons, ih _ hlt]
      exact List.take_append_drop _ _

theorem chunks_flatten (chunkSize : Nat) (hcs : 0 < chunkSize) (content : Bytes) :
    (chunks chunkSize content).flatten = content :=
  chunksAux_flatten chunkSize hcs _ content (Nat.le_refl _)

/-! ## Upload lemmas -/
theorem upload_chunks_fst (hash : Bytes → String) (cs : List Bytes) (st : Store) :
    (upload_chunks hash cs st).1 = cs.map hash := by
  induction cs generalizing st with
  | nil => simp [upload_chunks]
  | cons c rest ih => simp [upload_chunks, ih]

theorem upload_chunks_extends (hash : Bytes → String) (cs : List Bytes) (st : Store) :
    Extends st (upload_chunks hash cs st).2 := by
  induction cs generalizing st with
  | nil => exact fun k v h => h
  | cons c rest ih =>
    simp only [upload_chunks]
    exact (storage_write_dedup_extends st (hash c) c).trans (ih _)

theorem upload_chunks_hashed (hash : Bytes → String) (cs : List Bytes) (st : Store)
    (hst : StoreHashed hash st) : StoreHashed hash (upload_chunks hash cs st).2 := by
  induction cs generalizing st with
  | nil => simpa [upload_chunks] using hst
  | cons c rest ih =>
    simp only [upload_chunks]
    exact ih _ (storage_write_dedup_hashed hash st c hst)

theorem extends_isSome {st st' : Store} (h : Extends st st') (k : String)
    (hp : (st.lookup k).isSome) : (st'.lookup k).isSome := by
  obtain ⟨v, hv⟩ := Option.isSome_iff_exists.mp hp
  rw [h k v hv]
  rfl

theorem upload_chunks_present (hash : Bytes → String) (cs : List Bytes) (st : Store) :
    ∀ c ∈ cs, (((upload_chunks hash cs st).2).lookup (hash c)).isSome := by
  induction cs generalizing st with
  | nil => simp
  | cons c rest ih =>
    intro c' hc'
    simp only [upload_chunks]
    rcases List.mem_cons.mp hc' with rfl | h
    · exact extends_isSome (upload_chunks_extends hash rest _) _
        (storage_write_dedup_present st (hash c') c')
    · exact ih _ c' h

/-! ## `backup_file` lemmas -/
/-- With no previous entry, `backup_file` chunks and uploads: the entry
records the whole-file digest, the per-window digests in order, the byte
count and the modified-time. -/
theorem backup_file_none (hash : Bytes → String) (chunkSize : Nat) (name : String)
    (content : Bytes) (modified : Int) (st : Store) :
    backup_file hash chunkSize name content modified none st =
      (⟨name, hash content, (chunks chunkSize content).map hash,
        content.length, modified⟩,
       (upload_chunks hash (chunks chunkSize content) st).2) := by
  simp [backup_file, upload_chunks_fst]

theorem backup_file_none_extends (hash : Bytes → String) (chunkSize : Nat)
    (name : String) (content : Bytes) (modified : Int) (st : Store) :
    Extends st (backup_file hash chunkSize name content modified none st).2 := by
  rw [backup_file_none]
  exact upload_chunks_extends hash _ st

theorem backup_file_none_hashed (hash : Bytes → String) (chunkSize : Nat)
    (name : String) (content : Bytes) (modified : Int) (st : Store)
    (hst : StoreHashed hash st) :
    StoreHashed hash (backup_file hash chunkSize name content modified none st).2 := by
  rw [backup_file_none]
  exact upload_chunks_hashed hash _ st hst

/-! ## `read_chunks` and `restore_file` lemmas -/
theorem read_chunks_ok (keep_going : Bool) (st : Store) (cs : List Bytes)
    (hash_of : Bytes → String)
    (havail : ∀ c ∈ cs, st.lookup (hash_of c) = some c) :
    ∀ buffer written, read_chunks keep_going st (cs.map hash_of) buffer written =
      .ok (written ++ cs.flatten) := by
  induction cs with
  | nil => intro buffer written; simp [read_chunks]
  | cons c rest ih =>
    intro buffer written
    have hc : st.lookup (hash_of c) = some c := havail c (List.mem_cons_self c rest)
    simp only [List.map_cons, read_chunks, storage_read, hc]
    rw [ih (fun c' hc' => havail c' (List.mem_cons_of_mem c hc'))]
    simp

/-- Restoring a `FileEntry` into an empty target: the probe finds
nothing, the open succeeds whatever the overwrite policy, and the bytes
written are the concatenation of the stored chunks in list order. -/
theorem restore_file_fresh (args : RestoreArgs) (hash_of : Bytes → String)
    (name content_hash : String) (size : Nat) (modified : Int)
    (cs : List Bytes) (st : Store)
    (havail : ∀ c ∈ cs, st.lookup (hash_of c) = some c) :
    restore_file args ⟨name, content_hash, cs.map hash_of, size, modified⟩ none st =
      .ok (.written ⟨cs.flatten, modified⟩) := by
  simp only [restore_file, existing_matches]
  rw [read_chunks_ok args.keep_going st cs hash_of havail [] []]
  simp

/-! ## Lookup after permutation -/
theorem find?_eq_of_perm {α : Type} {p : α → Bool} {l l' : List α}
    (hp : l.Perm l')
    (huniq : ∀ a ∈ l, ∀ b ∈ l, p a = true → p b = true → a = b) :
    l.find? p = l'.find? p := by
  cases h : l.find? p with
  | none =>
    rw [List.find?_eq_none] at h
    symm
    rw [List.find?_eq_none]
    intro x hx
    exact h x (hp.mem_iff.mpr hx)
  | some a =>
    have hpa : p a = true := List.find?_some h
    have hma : a ∈ l := List.mem_of_find?_eq_some h
    have hma' : a ∈ l' := hp.mem_iff.mp hma
    cases h' : l'.find? p with
    | none =>
      rw [List.find?_eq_none] at h'
      exact absurd hpa (by simpa using h' a hma')
    | some b =>
      have hpb : p b = true := List.find?_some h'
      have hmb : b ∈ l := hp.mem_iff.mpr (List.mem_of_find?_eq_some h')
      rw [huniq a hma b hmb hpa hpb]

theorem treeSim_name {t u : FsTree} (h : TreeSim t u) : u.name = t.name := by
  cases h <;> rfl

theorem forestSim_fwd {ts us : List FsTree} (h : ForestSim ts us) :
    ∀ n t, findNode ts n = some t →
      ∃ u, findNode us n = some u ∧ TreeSim t u := by
  obtain ⟨_, _, hiff, hcorr⟩ := h
  intro n t ht
  have : (findNode us n).isSome := (hiff n).mp (by rw [ht]; rfl)
  obtain ⟨u, hu⟩ := Option.isSome_iff_exists.mp this
  exact ⟨u, hu, hcorr n t u ht hu⟩

theorem forestSim_bwd {ts us : List FsTree} (h : ForestSim ts us) :
    ∀ n u, findNode us n = some u →
      ∃ t, findNode ts n = some t ∧ TreeSim t u := by
  obtain ⟨_, _, hiff, hcorr⟩ := h
  intro n u hu
  have : (findNode ts n).isSome := (hiff n).mpr (by rw [hu]; rfl)
  obtain ⟨t, ht⟩ := Option.isSome_iff_exists.mp this
  exact ⟨t, ht, hcorr n t u ht hu⟩

theorem forestSim_fileAt_dirAt :
    ∀ (p : List String) (ts us : List FsTree), ForestSim ts us →
      fileAt us p = fileAt ts p ∧ dirAt us p = dirAt ts p := by
  intro p
  induction p with
  | nil => intro ts us _; exact ⟨rfl, rfl⟩
  | cons n rest ih =>
    intro ts us hsim
    have fwd := forestSim_fwd hsim
    have bwd := forestSim_bwd hsim
    constructor
    · -- fileAt
      cases rest with
      | nil =>
        cases ht : findNode ts n with
        | none =>
          cases hu : findNode us n with
          | none => simp [fileAt, ht, hu]
          | some u =>
            obtain ⟨t, ht', _⟩ := bwd n u hu
            rw [ht] at ht'
            cases ht'
        | some t =>
          obtain ⟨u, hu, hsim'⟩ := fwd n t ht
          cases hsim' with
          | file n' b m => simp [fileAt, ht, hu]
          | dir n' ch ch' hf => simp [fileAt, ht, hu]
      | cons n2 rest2 =>
        cases ht : findNode ts n with
        | none =>
          cases hu : findNode us n with
          | none => simp [fileAt, ht, hu]
          | some u =>
            obtain ⟨t, ht', _⟩ := bwd n u hu
            rw [ht] at ht'
            cases ht'
        | some t =>
          obtain ⟨u, hu, hsim'⟩ := fwd n t ht
          cases hsim' with
          | file n' b m => simp [fileAt, ht, hu]
          | dir n' ch ch' hf =>
            simp only [fileAt, ht, hu]
            exact (ih ch ch' hf).1
    · -- dirAt
      cases ht : findNode ts n with
      | none =>
        cases hu : findNode us n with
        | none => simp [dirAt, ht, hu]
        | some u =>
          obtain ⟨t, ht', _⟩ := bwd n u hu
          rw [ht] at ht'
          cases ht'
      | some t =>
        obtain ⟨u, hu, hsim'⟩ := fwd n t ht
        cases hsim' with
        | file n' b m => simp [dirAt, ht, hu]
        | dir n' ch ch' hf =>
          simp only [dirAt, ht, hu]
          exact (ih ch ch' hf).2

theorem findNode_isSome (ts : List FsTree) (n : String) :
    (findNode ts n).isSome ↔ n ∈ ts.map FsTree.name := by
  simp only [findNode, List.find?_isSome, List.mem_map]
  constructor
  · rintro ⟨t, ht, hp⟩
    exact ⟨t, ht, of_decide_eq_true hp⟩
  · rintro ⟨t, ht, hp⟩
    exact ⟨t, ht, decide_eq_true hp⟩

theorem findNode_some (ts : List FsTree) (n : String) (t : FsTree)
    (h : findNode ts n = some t) : t ∈ ts ∧ t.name = n := by
  simp only [findNode] at h
  refine ⟨List.mem_of_find?_eq_some h, ?_⟩
  have := List.find?_some h
  simpa using this

theorem mem_name_unique {ts : List FsTree} (hnd : (ts.map FsTree.name).Nodup)
    {t t' : FsTree} (ht : t ∈ ts) (ht' : t' ∈ ts) (hn : t.name = t'.name) :
    t = t' := by
  induction ts with
  | nil => cases ht
  | cons a rest ih =>
    simp only [List.map_cons, List.nodup_cons] at hnd
    rcases List.mem_cons.mp ht with h1 | h1 <;>
      rcases List.mem_cons.mp ht' with h2 | h2
    · rw [h1, h2]
    · refine absurd ?_ hnd.1
      rw [show a.name = t'.name from by rw [← h1]; exact hn]
      exact List.mem_map_of_mem FsTree.name h2
    · refine absurd ?_ hnd.1
      rw [show a.name = t.name from by rw [← h2]; exact hn.symm]
      exact List.mem_map_of_mem FsTree.name h1
    · exact ih hnd.2 h1 h2

theorem treeDepth_le_forestDepth {t : FsTree} {ts : List FsTree} (h : t ∈ ts) :
    treeDepth t ≤ forestDepth ts := by
  induction ts with
  | nil => cases h
  | cons a rest ih =>
    rcases List.mem_cons.mp h with rfl | h
    · simp [forestDepth]
    · simp only [forestDepth]
      exact le_max_of_le_right (ih h)

theorem uniqueChildren_mem {ts : List FsTree} (h : uniqueChildren ts = true)
    {t : FsTree} (ht : t ∈ ts) : uniqueTree t = true := by
  induction ts with
  | nil => cases ht
  | cons a rest ih =>
    simp only [uniqueChildren, Bool.and_eq_true] at h
    rcases List.mem_cons.mp ht with rfl | ht
    · exact h.1
    · exact ih h.2 ht

theorem uniqueForest_names {ts : List FsTree} (h : uniqueForest ts = true) :
    (ts.map FsTree.name).Nodup := by
  simp only [uniqueForest, Bool.and_eq_true, decide_eq_true_eq] at h
  exact h.1

theorem uniqueForest_children {ts : List FsTree} (h : uniqueForest ts = true) :
    uniqueChildren ts = true := by
  simp only [uniqueForest, Bool.and_eq_true] at h
  exact h.2

theorem uniqueForest_of_dir_mem {ts : List FsTree} (h : uniqueForest ts = true)
    {n : String} {ch : List FsTree} (hmem : FsTree.dir n ch ∈ ts) :
    uniqueForest ch = true := by
  have := uniqueChildren_mem (uniqueForest_children h) hmem
  simpa [uniqueTree, uniqueForest] using this

theorem uniqueForest_tail {t : FsTree} {ts : List FsTree}
    (h : uniqueForest (t :: ts) = true) : uniqueForest ts = true := by
  simp only [uniqueForest, Bool.and_eq_true, decide_eq_true_eq, List.map_cons,
    List.nodup_cons, uniqueChildren] at h ⊢
  exact ⟨h.1.2, h.2.2⟩

/-- Sibling names split: the names of the sub-directory children and the
names of the file children partition the sibling names. -/
theorem dir_file_names_perm (ts : List FsTree) :
    ((dirChildren ts).map FsTree.name ++ (fileChildren ts).map FsTree.name).Perm
      (ts.map FsTree.name) := by
  have := (List.filter_append_perm isDirB ts).map FsTree.name
  simpa [dirChildren, fileChildren] using this

theorem forall2_mem_right {α β : Type} {R : α → β → Prop} :
    ∀ {xs : List α} {ys : List β}, List.Forall₂ R xs ys →
      ∀ y ∈ ys, ∃ x ∈ xs, R x y := by
  intro xs ys h
  induction h with
  | nil => intro y hy; cases hy
  | cons hR _ ih =>
    intro y hy
    rcases List.mem_cons.mp hy with rfl | hy
    · exact ⟨_, List.mem_cons_self _ _, hR⟩
    · obtain ⟨x, hx, hxy⟩ := ih y hy
      exact ⟨x, List.mem_cons_of_mem _ hx, hxy⟩

theorem forall2_names {α β : Type} {R : α → β → Prop} {f : α → String}
    {g : β → String} :
    ∀ {xs : List α} {ys : List β}, List.Forall₂ R xs ys →
      (∀ x y, R x y → g y = f x) → ys.map g = xs.map f := by
  intro xs ys h hpres
  induction h with
  | nil => rfl
  | cons hR _ ih => simp [hpres _ _ hR, ih]

/-! ## Restore loop lemmas -/
theorem restore_files_ok (args : RestoreArgs) (st : Store) :
    ∀ fes : List FileEntry,
      (∀ fe ∈ fes, ∃ b, restore_file args fe none st = .ok (.written ⟨b, fe.modified⟩)) →
      ∃ out, restore_files args fes st = .ok out ∧
        List.Forall₂
          (fun fe t => ∃ b,
            restore_file args fe none st = .ok (.written ⟨b, fe.modified⟩) ∧
            t = FsTree.file fe.name b fe.modified)
          fes out := by
  intro fes
  induction fes with
  | nil => intro _; exact ⟨[], rfl, List.Forall₂.nil⟩
  | cons fe rest ih =>
    intro h
    obtain ⟨b, hb⟩ := h fe (List.mem_cons_self fe rest)
    obtain ⟨out, hout, hcorr⟩ := ih fun fe' hfe' => h fe' (List.mem_cons_of_mem fe hfe')
    refine ⟨FsTree.file fe.name b fe.modified :: out, ?_, ?_⟩
    · simp only [restore_files, hb, hout]
    · exact List.Forall₂.cons ⟨b, hb, rfl⟩ hcorr

theorem restore_sub_dirs_nil (decode : Bytes → Option DirEntry) (args : RestoreArgs)
    (fuel : Nat) (st : Store) :
    restore_sub_dirs decode args fuel [] st = .ok [] := by
  simp [restore_sub_dirs]

theorem restore_sub_dirs_ok (decode : Bytes → Option DirEntry) (args : RestoreArgs)
    (st : Store) (fuel' : Nat) :
    ∀ sds : List SubDirEntry,
      (∀ sd ∈ sds, ∃ d' ts, sd.content = some (.inline d') ∧
        restore_dir decode args fuel' d' st = .ok ts) →
      ∃ out, restore_sub_dirs decode args (fuel' + 1) sds st = .ok out ∧
        List.Forall₂
          (fun sd t => ∃ d' ts, sd.content = some (.inline d') ∧
            restore_dir decode args fuel' d' st = .ok ts ∧
            t = FsTree.dir sd.name ts)
          sds out := by
  intro sds
  induction sds with
  | nil => intro _; exact ⟨[], restore_sub_dirs_nil decode args _ st, List.Forall₂.nil⟩
  | cons sd rest ih =>
    intro h
    obtain ⟨d', ts, hcont, hrec⟩ := h sd (List.mem_cons_self sd rest)
    obtain ⟨out, hout, hcorr⟩ := ih fun sd' hsd' => h sd' (List.mem_cons_of_mem sd hsd')
    refine ⟨FsTree.dir sd.name ts :: out, ?_, ?_⟩
    · simp only [restore_sub_dirs, hcont, hrec, hout]
    · exact List.Forall₂.cons ⟨d', ts, hcont, hrec, rfl⟩ hcorr

/-! ## Assembling a directory round trip -/
/-- Core assembly step: the sorted `DirEntry` that `backup_dir` builds
from the per-child results restores (in a store extending the one backup
produced) to a forest name-equivalent to the original children. -/
theorem assembly_core (hash : Bytes → String) (chunkSize : Nat)
    (decode : Bytes → Option DirEntry) (args : RestoreArgs)
    (hinj : Function.Injective hash) (hCS : 0 < chunkSize)
    (children : List FsTree) (st₁ st₂ : Store)
    (subs : List (SubDirEntry × Nat)) (files : List FileEntry)
    (huniq : uniqueForest children = true)
    (hext : Extends st₁ st₂) (hst₂ : StoreHashed hash st₂)
    (hfn : files.map FileEntry.name = (fileChildren children).map FsTree.name)
    (hsn : subs.map (fun q => q.1.name) = (dirChildren children).map FsTree.name)
    (hfe : ∀ fe ∈ files, ∃ n b m, fe = fileEntryOf hash chunkSize n b m ∧
        FsTree.file n b m ∈ children ∧
        ∀ c ∈ chunks chunkSize b, ((st₁.lookup (hash c)).isSome))
    (fuel fl : Nat) (sz : Nat)
    (outSubs : List FsTree)
    (houtSubs : restore_sub_dirs decode args fuel
      ((subs.map Prod.fst).mergeSort (fun a b => strLe a.name b.name)) st₂ = .ok outSubs)
    (corrS : List.Forall₂ (fun sd t => ∃ d' ts', sd.content = some (.inline d') ∧
        restore_dir decode args fl d' st₂ = .ok ts' ∧ t = FsTree.dir sd.name ts')
      ((subs.map Prod.fst).mergeSort (fun a b => strLe a.name b.name)) outSubs)
    (hRT : ∀ sd ∈ (subs.map Prod.fst).mergeSort (fun a b => strLe a.name b.name),
        ∀ d', sd.content = some (.inline d') →
        ∀ ch, FsTree.dir sd.name ch ∈ children →
          ∃ ts, restore_dir decode args fl d' st₂ = .ok ts ∧ ForestSim ch ts) :
    ∃ restored,
      restore_dir decode args fuel
        ⟨(subs.map Prod.fst).mergeSort (fun a b => strLe a.name b.name),
         files.mergeSort (fun a b => strLe a.name b.name), sz⟩ st₂ = .ok restored ∧
      ForestSim children restored := by
  have hnd : (children.map FsTree.name).Nodup := uniqueForest_names huniq
  have hperm := dir_file_names_perm children
  have hnd2 : ((dirChildren children).map FsTree.name ++
      (fileChildren children).map FsTree.name).Nodup := (hperm.nodup_iff).mpr hnd
  -- restore the files
  have hrf : ∀ fe ∈ files.mergeSort (fun a b => strLe a.name b.name),
      ∃ b, restore_file args fe none st₂ = .ok (.written ⟨b, fe.modified⟩) := by
    intro fe hf
    obtain ⟨n, b, m, rfl, hmem, hav⟩ := hfe fe (List.mem_mergeSort.mp hf)
    refine ⟨b, ?_⟩
    have havail : ∀ c ∈ chunks chunkSize b, st₂.lookup (hash c) = some c := fun c hc =>
      hashed_lookup hash st₂ c hst₂ hinj (extends_isSome hext _ (hav c hc))
    have hfr := restore_file_fresh args hash n (hash b) b.length m
      (chunks chunkSize b) st₂ havail
    rw [chunks_flatten chunkSize hCS] at hfr
    exact hfr
  obtain ⟨outFiles, houtFiles, corrF⟩ :=
    restore_files_ok args st₂ (files.mergeSort (fun a b => strLe a.name b.name)) hrf
  refine ⟨outSubs ++ outFiles, ?_, ?_⟩
  · simp only [restore_dir, DirEntry.sub_dir, DirEntry.file, houtSubs, houtFiles]
  -- the name bookkeeping
  have hOSnames : outSubs.map FsTree.name =
      ((subs.map Prod.fst).mergeSort (fun a b => strLe a.name b.name)).map SubDirEntry.name := by
    refine forall2_names corrS ?_
    intro sd t ht
    obtain ⟨d', ts', _, _, rfl⟩ := ht
    rfl
  have hOFnames : outFiles.map FsTree.name =
      (files.mergeSort (fun a b => strLe a.name b.name)).map FileEntry.name := by
    refine forall2_names corrF ?_
    intro fe t ht
    obtain ⟨b, _, rfl⟩ := ht
    rfl
  have hsdsPerm : (((subs.map Prod.fst).mergeSort
      (fun a b => strLe a.name b.name)).map SubDirEntry.name).Perm
      ((dirChildren children).map FsTree.name) := by
    have hp := (List.mergeSort_perm (subs.map Prod.fst)
      (fun a b => strLe a.name b.name)).map SubDirEntry.name
    rw [List.map_map] at hp
    have : subs.map (SubDirEntry.name ∘ Prod.fst) = (dirChildren children).map FsTree.name := hsn
    rwa [this] at hp
  have hfilesPerm : ((files.mergeSort (fun a b => strLe a.name b.name)).map
      FileEntry.name).Perm ((fileChildren children).map FsTree.name) := by
    have hp := (List.mergeSort_perm files (fun a b => strLe a.name b.name)).map FileEntry.name
    rwa [hfn] at hp
  have hResNames : (((outSubs ++ outFiles).map FsTree.name)).Perm
      (children.map FsTree.name) := by
    rw [List.map_append, hOSnames, hOFnames]
    exact (hsdsPerm.append hfilesPerm).trans hperm
  refine ForestSim.mk _ _ ?_ ?_
  · intro n
    rw [findNode_isSome, findNode_isSome]
    exact ⟨fun h => (hResNames.mem_iff).mpr h, fun h => (hResNames.mem_iff).mp h⟩
  · intro n t u ht hu
    obtain ⟨htmem, htname⟩ := findNode_some _ _ _ ht
    obtain ⟨humem, huname⟩ := findNode_some _ _ _ hu
    rcases List.mem_append.mp humem with huS | huF
    · -- a restored sub-directory
      obtain ⟨sd, hsdmem, d'', ts', hcont'', hok'', hueq⟩ := forall2_mem_right corrS u huS
      subst hueq
      have hn : sd.name = n := huname
      have hnm : sd.name ∈ (dirChildren children).map FsTree.name :=
        (hsdsPerm.mem_iff).mp (List.mem_map_of_mem SubDirEntry.name hsdmem)
      obtain ⟨tdir, htdirmem, htdirname⟩ := List.mem_map.mp hnm
      have htdir_children : tdir ∈ children := (List.mem_filter.mp htdirmem).1
      have hisdir : isDirB tdir = true := (List.mem_filter.mp htdirmem).2
      obtain ⟨ch, rfl⟩ : ∃ ch, tdir = FsTree.dir sd.name ch := by
        cases tdir with
        | file _ _ _ => simp [isDirB] at hisdir
        | dir n2 ch => exact ⟨ch, by rw [show n2 = sd.name from htdirname]⟩
      have ht_eq : t = FsTree.dir sd.name ch := by
        refine mem_name_unique hnd htmem htdir_children ?_
        rw [htname, show (FsTree.dir sd.name ch).name = sd.name from rfl, hn]
      obtain ⟨ts₂, hok₂, hsim₂⟩ := hRT sd hsdmem d'' hcont'' ch htdir_children
      have hts : ts₂ = ts' := by
        rw [hok₂] at hok''
        exact Except.ok.inj hok''
      rw [ht_eq]
      exact TreeSim.dir sd.name ch ts' (hts ▸ hsim₂)
    · -- a restored file
      obtain ⟨fe, hfemem, b, hrfe, hueq⟩ := forall2_mem_right corrF u huF
      subst hueq
      have hn : fe.name = n := huname
      obtain ⟨n', b', m', hfeeq, hmem', hav'⟩ := hfe fe (List.mem_mergeSort.mp hfemem)
      have hn' : fe.name = n' := by rw [hfeeq]; rfl
      have ht_eq : t = FsTree.file n' b' m' := by
        refine mem_name_unique hnd htmem hmem' ?_
        rw [htname, show (FsTree.file n' b' m').name = n' from rfl, ← hn', hn]
      -- compute what restore_file actually wrote
      have havail : ∀ c ∈ chunks chunkSize b', st₂.lookup (hash c) = some c := fun c hc =>
        hashed_lookup hash st₂ c hst₂ hinj (extends_isSome hext _ (hav' c hc))
      have hfr := restore_file_fresh args hash n' (hash b') b'.length m'
        (chunks chunkSize b') st₂ havail
      rw [chunks_flatten chunkSize hCS] at hfr
      rw [hfeeq] at hrfe
      have hbb : b = b' := by
        simp only [fileEntryOf] at hrfe
        rw [hfr] at hrfe
        have h2 := Except.ok.inj hrfe
        injection h2 with h3
        injection h3 with h4 h5
        exact h4.symm
      rw [ht_eq, show fe.name = n' from hn',
        show fe.modified = m' from by rw [hfeeq]; simp [fileEntryOf], hbb]
      exact TreeSim.file n' b' m'

/-- From the per-child phase to the whole directory: `backup_dir`
succeeds, and the `DirEntry` it emits restores to a forest
name-equivalent to the children, in any hashed extension of the store. -/
theorem assemble (hash : Bytes → String) (chunkSize : Nat)
    (decode : Bytes → Option DirEntry)
    (hinj : Function.Injective hash) (hCS : 0 < chunkSize)
    {children : List FsTree} {st₀ st₁ : Store}
    {subs : List (SubDirEntry × Nat)} {files : List FileEntry}
    (hbc : backup_children hash chunkSize decode children none st₀ = .ok (subs, files, st₁))
    (hB : BackedUp hash chunkSize decode children st₀ st₁ subs files)
    (huniq : uniqueForest children = true) :
    ∃ d, backup_dir hash chunkSize decode children none st₀ = .ok (d, st₁) ∧
      ∀ args st₂, Extends st₁ st₂ → StoreHashed hash st₂ →
        RestoresTo decode args d st₂ children := by
  obtain ⟨hh1, hh2, hfn, hsn, hfe, hsd⟩ := hB
  refine ⟨⟨(subs.map Prod.fst).mergeSort (fun a b => strLe a.name b.name),
          files.mergeSort (fun a b => strLe a.name b.name),
          (subs.map Prod.snd).sum + (files.map FileEntry.size).sum⟩, ?_, ?_⟩
  · rw [backup_dir, hbc]
  intro args st₂ hext hst₂ fuel hfuel
  cases fuel with
  | zero =>
    have hdirnil : dirChildren children = [] := by
      rw [List.eq_nil_iff_forall_not_mem]
      intro t hmem
      have htc : t ∈ children := (List.mem_filter.mp hmem).1
      have hd : isDirB t = true := (List.mem_filter.mp hmem).2
      cases t with
      | file _ _ _ => simp [isDirB] at hd
      | dir n2 ch2 =>
        have := treeDepth_le_forestDepth htc
        simp only [treeDepth] at this
        omega
    have hsubsnil : subs = [] := by
      have := hsn
      rw [hdirnil] at this
      simpa using this
    subst hsubsnil
    exact assembly_core hash chunkSize decode args hinj hCS children st₁ st₂ [] files
      huniq hext hst₂ hfn (by simp [hdirnil]) hfe 0 0 _ []
      (by simpa using restore_sub_dirs_nil decode args 0 st₂)
      (by simp) (by simp)
  | succ fuel' =>
    have hRT : ∀ sd ∈ (subs.map Prod.fst).mergeSort (fun a b => strLe a.name b.name),
        ∀ d', sd.content = some (.inline d') →
        ∀ ch, FsTree.dir sd.name ch ∈ children →
          ∃ ts, restore_dir decode args fuel' d' st₂ = .ok ts ∧ ForestSim ch ts := by
      intro sd hsdmem d' hcont ch hchmem
      obtain ⟨q, hq, hq1⟩ := List.mem_map.mp (List.mem_mergeSort.mp hsdmem)
      obtain ⟨d'', hcont'', hkey⟩ := hsd q hq
      have hdd : d'' = d' := by
        rw [hq1] at hcont''
        rw [hcont''] at hcont
        exact Content.inline.inj (Option.some.inj hcont)
      have hdep : forestDepth ch ≤ fuel' := by
        have := treeDepth_le_forestDepth hchmem
        simp only [treeDepth] at this
        omega
      have hkey' := hkey ch (by rw [hq1]; exact hchmem) args st₂ hext hst₂
      obtain ⟨ts, hok, hsim⟩ := hkey' fuel' hdep
      exact ⟨ts, by rw [← hdd]; exact hok, hsim⟩
    have hsdhyp : ∀ sd ∈ (subs.map Prod.fst).mergeSort (fun a b => strLe a.name b.name),
        ∃ d' ts, sd.content = some (.inline d') ∧
          restore_dir decode args fuel' d' st₂ = .ok ts := by
      intro sd hsdmem
      obtain ⟨q, hq, hq1⟩ := List.mem_map.mp (List.mem_mergeSort.mp hsdmem)
      obtain ⟨d'', hcont'', _⟩ := hsd q hq
      have hcont : sd.content = some (.inline d'') := by rw [← hq1]; exact hcont''
      -- find a directory child carrying this name
      have hnm : sd.name ∈ (dirChildren children).map FsTree.name := by
        rw [← hsn]
        rw [← hq1]
        exact List.mem_map_of_mem (fun q => q.1.name) hq
      obtain ⟨tdir, htdirmem, htdirname⟩ := List.mem_map.mp hnm
      have htdir_children : tdir ∈ children := (List.mem_filter.mp htdirmem).1
      have hisdir : isDirB tdir = true := (List.mem_filter.mp htdirmem).2
      obtain ⟨ch, rfl⟩ : ∃ ch, tdir = FsTree.dir sd.name ch := by
        cases tdir with
        | file _ _ _ => simp [isDirB] at hisdir
        | dir n2 ch2 => exact ⟨ch2, by rw [show n2 = sd.name from htdirname]⟩
      obtain ⟨ts, hok, _⟩ := hRT sd hsdmem d'' hcont ch htdir_children
      exact ⟨d'', ts, hcont, hok⟩
    obtain ⟨outSubs, houtSubs, corrS⟩ := restore_sub_dirs_ok decode args st₂ fuel' _ hsdhyp
    exact assembly_core hash chunkSize decode args hinj hCS children st₁ st₂ subs files
      huniq hext hst₂ hfn hsn hfe (fuel' + 1) fuel' _ outSubs houtSubs corrS hRT

/-- Main induction: a first backup (empty baseline) of any well-formed
forest succeeds, leaves a hashed store extension behind, and its output
satisfies `BackedUp`. -/
theorem backup_children_good (hash : Bytes → String) (chunkSize : Nat)
    (decode : Bytes → Option DirEntry)
    (hinj : Function.Injective hash) (hCS : 0 < chunkSize) :
    ∀ N children, sizeOf children ≤ N → ∀ st₀ : Store, StoreHashed hash st₀ →
      uniqueForest children = true →
      ∃ subs files st₁,
        backup_children hash chunkSize decode children none st₀ = .ok (subs, files, st₁) ∧
        BackedUp hash chunkSize decode children st₀ st₁ subs files := by
  intro N
  induction N with
  | zero =>
    intro children hsz
    exact absurd hsz (by cases children <;> simp)
  | succ N ih =>
    intro children hsz st₀ hst₀ huniq
    match children with
    | [] =>
      refine ⟨[], [], st₀, by simp [backup_children], ?_⟩
      refine ⟨hst₀, Extends.refl st₀, by simp [fileChildren], by simp [dirChildren], ?_, ?_⟩
      · intro fe hfe; cases hfe
      · intro q hq; cases hq
    | .file n b m :: rest =>
      have hbf : backup_file hash chunkSize n b m (prev_file_entry none n) st₀ =
          (fileEntryOf hash chunkSize n b m,
           (upload_chunks hash (chunks chunkSize b) st₀).2) := by
        simp only [prev_file_entry]
        exact backup_file_none hash chunkSize n b m st₀
      have hext' : Extends st₀ (upload_chunks hash (chunks chunkSize b) st₀).2 :=
        upload_chunks_extends hash _ st₀
      have hst' : StoreHashed hash (upload_chunks hash (chunks chunkSize b) st₀).2 :=
        upload_chunks_hashed hash _ st₀ hst₀
      have hpres := upload_chunks_present hash (chunks chunkSize b) st₀
      have hszr : sizeOf rest ≤ N := by
        have : sizeOf (FsTree.file n b m :: rest) = 1 + sizeOf (FsTree.file n b m) + sizeOf rest :=
          List.cons.sizeOf_spec _ _
        have hpos : 0 < sizeOf (FsTree.file n b m) := by
          cases (FsTree.file n b m) <;> simp_arith
        omega
      obtain ⟨subs, files_r, st₁, hbcr, hBr⟩ :=
        ih rest hszr _ hst' (uniqueForest_tail huniq)
      obtain ⟨h1, h2, h3, h4, h5, h6⟩ := hBr
      refine ⟨subs, fileEntryOf hash chunkSize n b m :: files_r, st₁, ?_, ?_⟩
      · simp only [backup_children, hbf, hbcr]
      refine ⟨h1, hext'.trans h2, ?_, ?_, ?_, ?_⟩
      · simp only [List.map_cons, h3]
        simp [fileChildren, isDirB, fileEntryOf, FsTree.name]
      · simpa [dirChildren, isDirB] using h4
      · intro fe hmem
        rcases List.mem_cons.mp hmem with rfl | hmem
        · exact ⟨n, b, m, rfl, List.mem_cons_self _ _,
            fun c hc => extends_isSome h2 _ (hpres c hc)⟩
        · obtain ⟨n', b', m', heq, hmem', hav⟩ := h5 fe hmem
          exact ⟨n', b', m', heq, List.mem_cons_of_mem _ hmem', hav⟩
      · intro q hq
        obtain ⟨d', hcont, hkey⟩ := h6 q hq
        refine ⟨d', hcont, ?_⟩
        intro ch hch args st₂ hext2 hst2
        rcases List.mem_cons.mp hch with heq | hch
        · cases heq
        · exact hkey ch hch args st₂ hext2 hst2
    | .dir n ch :: rest =>
      have hszch : sizeOf ch ≤ N := by
        have h0 : sizeOf (FsTree.dir n ch :: rest) = 1 + sizeOf (FsTree.dir n ch) + sizeOf rest :=
          List.cons.sizeOf_spec _ _
        have h1 : sizeOf (FsTree.dir n ch) = 1 + sizeOf n + sizeOf ch := by simp_arith
        have h2 : 0 < sizeOf rest := by cases rest <;> simp_arith
        omega
      obtain ⟨subs_c, files_c, st_c, hbcc, hBc⟩ :=
        ih ch hszch st₀ hst₀ (uniqueForest_of_dir_mem huniq (List.mem_cons_self _ _))
      obtain ⟨d, hbd, hRTd⟩ := assemble hash chunkSize decode hinj hCS hbcc hBc
        (uniqueForest_of_dir_mem huniq (List.mem_cons_self _ _))
      have hextc : Extends st₀ st_c := hBc.2.1
      have hszr : sizeOf rest ≤ N := by
        have h0 : sizeOf (FsTree.dir n ch :: rest) = 1 + sizeOf (FsTree.dir n ch) + sizeOf rest :=
          List.cons.sizeOf_spec _ _
        have h1 : 0 < sizeOf (FsTree.dir n ch) := by simp_arith
        omega
      obtain ⟨subs_r, files_r, st₁, hbcr, hBr⟩ :=
        ih rest hszr st_c hBc.1 (uniqueForest_tail huniq)
      obtain ⟨h1, h2, h3, h4, h5, h6⟩ := hBr
      refine ⟨(⟨n, some (.inline d)⟩, d.size) :: subs_r, files_r, st₁, ?_, ?_⟩
      · have hres : resolve_prev_sub decode st₀ (prev_sub_entry none n) =
            .ok none := by simp [prev_sub_entry, resolve_prev_sub]
        simp only [backup_children, hres, hbd, hbcr]
      refine ⟨h1, hextc.trans h2, ?_, ?_, ?_, ?_⟩
      · simpa [fileChildren, isDirB] using h3
      · simp only [List.map_cons, h4]
        simp [dirChildren, isDirB, SubDirEntry.name, FsTree.name]
      · intro fe hmem
        obtain ⟨n', b', m', heq, hmem', hav⟩ := h5 fe hmem
        exact ⟨n', b', m', heq, List.mem_cons_of_mem _ hmem', hav⟩
      · intro q hq
        rcases List.mem_cons.mp hq with rfl | hq
        · refine ⟨d, rfl, ?_⟩
          intro ch' hch' args st₂ hext2 hst2
          have hname : SubDirEntry.name ⟨n, some (.inline d)⟩ = n := rfl
          rw [hname] at hch'
          rcases List.mem_cons.mp hch' with heq | hch'
          · have hcheq : ch' = ch := (FsTree.dir.inj heq).2
            subst hcheq
            exact hRTd args st₂ (h2.trans hext2) hst2
          · -- a second directory named `n` in the tail: impossible by nodup
            exfalso
            have hnames := uniqueForest_names huniq
            simp only [List.map_cons, List.nodup_cons] at hnames
            refine hnames.1 ?_
            have hm2 : (FsTree.dir n ch').name ∈ rest.map FsTree.name :=
              List.mem_map_of_mem FsTree.name hch'
            simpa [FsTree.name] using hm2
        · obtain ⟨d', hcont, hkey⟩ := h6 q hq
          refine ⟨d', hcont, ?_⟩
          intro ch' hch' args st₂ hext2 hst2
          rcases List.mem_cons.mp hch' with heq | hch'
          · -- q's name would equal the head name `n`, impossible by nodup
            exfalso
            have hqn : q.1.name = n := (FsTree.dir.inj heq).1
            have hnames := uniqueForest_names huniq
            simp only [List.map_cons, List.nodup_cons] at hnames
            have hmemn : q.1.name ∈ (dirChildren rest).map FsTree.name := by
              rw [← h4]
              exact List.mem_map_of_mem (fun q => q.1.name) hq
            obtain ⟨tdir, htdirmem, htdirname⟩ := List.mem_map.mp hmemn
            have : n ∈ rest.map FsTree.name := by
              rw [← hqn, ← htdirname]
              exact List.mem_map_of_mem FsTree.name ((List.mem_filter.mp htdirmem).1)
            exact hnames.1 this
          · exact hkey ch' hch' args st₂ hext2 hst2

theorem witHash_injective : Function.Injective witHash := by
  intro a b h
  have h2 : List.replicate (Encodable.encode a) 'a' =
      List.replicate (Encodable.encode b) 'a' := by
    simpa [witHash] using congrArg String.data h
  have h3 := congrArg List.length h2
  simpa using h3

/-- C1: for any directory tree (sibling names distinct, as on a real
filesystem), a first backup into a hashed store succeeds, and restoring
the resulting root `DirEntry` into an empty target succeeds and
reproduces identical relative paths (both files and directories),
identical file bytes, and identical file sizes.  The per-file bytes are
produced by reading each chunk named in `chunk_hash`, in order, from the
Blob collection — that is the definition of `restore_file` — and they
equal the original file's bytes.  Collision-freedom of the digest is the
standing content-addressing assumption. -/
theorem c1_backup_restore_round_trip
    (hash : Bytes → String) (chunkSize : Nat) (decode : Bytes → Option DirEntry)
    (tree : List FsTree) (st₀ : Store) (args : RestoreArgs)
    (hinj : Function.Injective hash) (hCS : 0 < chunkSize)
    (hst₀ : StoreHashed hash st₀) (huniq : uniqueForest tree = true) :
    ∃ d st₁ restored,
      backup_dir hash chunkSize decode tree none st₀ = .ok (d, st₁) ∧
      restore_dir decode args (forestDepth tree) d st₁ = .ok restored ∧
      (∀ p, fileAt restored p = fileAt tree p) ∧
      (∀ p, dirAt restored p = dirAt tree p) ∧
      (∀ p, (fileAt restored p).map List.length = (fileAt tree p).map List.length) := by
  obtain ⟨subs, files, st₁, hbc, hB⟩ :=
    backup_children_good hash chunkSize decode hinj hCS (sizeOf tree) tree
      (Nat.le_refl _) st₀ hst₀ huniq
  obtain ⟨d, hbd, hRT⟩ := assemble hash chunkSize decode hinj hCS hbc hB huniq
  obtain ⟨restored, hres, hsim⟩ :=
    hRT args st₁ (Extends.refl st₁) hB.1 (forestDepth tree) (Nat.le_refl _)
  refine ⟨d, st₁, restored, hbd, hres, ?_, ?_, ?_⟩
  · intro p; exact (forestSim_fileAt_dirAt p tree restored hsim).1
  · intro p; exact (forestSim_fileAt_dirAt p tree restored hsim).2
  · intro p; rw [(forestSim_fileAt_dirAt p tree restored hsim).1]

/-- Witness for C1 at a concrete two-file tree with a sub-directory. -/
theorem c1_backup_restore_round_trip_witness :
    ∃ d st₁ restored,
      backup_dir witHash 4 (fun _ => none)
        [FsTree.file "a" [104, 105] 7,
         FsTree.dir "sub" [FsTree.file "b" [98, 121, 101] 9]] none [] = .ok (d, st₁) ∧
      restore_dir (fun _ => none) ⟨false, false⟩
        (forestDepth [FsTree.file "a" [104, 105] 7,
          FsTree.dir "sub" [FsTree.file "b" [98, 121, 101] 9]]) d st₁ = .ok restored ∧
      (∀ p, fileAt restored p =
        fileAt [FsTree.file "a" [104, 105] 7,
          FsTree.dir "sub" [FsTree.file "b" [98, 121, 101] 9]] p) ∧
      (∀ p, dirAt restored p =
        dirAt [FsTree.file "a" [104, 105] 7,
          FsTree.dir "sub" [FsTree.file "b" [98, 121, 101] 9]] p) ∧
      (∀ p, (fileAt restored p).map List.length =
        (fileAt [FsTree.file "a" [104, 105] 7,
          FsTree.dir "sub" [FsTree.file "b" [98, 121, 101] 9]] p).map List.length) :=
  c1_backup_restore_round_trip witHash 4 (fun _ => none)
    [FsTree.file "a" [104, 105] 7,
     FsTree.dir "sub" [FsTree.file "b" [98, 121, 101] 9]] [] ⟨false, false⟩
    witHash_injective (by decide) (storeHashed_nil witHash)
    (by simp [uniqueForest, uniqueChildren, uniqueTree, FsTree.name])

theorem resolveChunks_map (hash : Bytes → String) (st : Store) :
    ∀ cs : List Bytes, (∀ c ∈ cs, st.lookup (hash c) = some c) →
      resolveChunks st (cs.map hash) = some cs := by
  intro cs
  induction cs with
  | nil => intro _; rfl
  | cons c rest ih =>
    intro h
    simp only [List.map_cons, resolveChunks, h c (List.mem_cons_self c rest),
      ih fun c' hc' => h c' (List.mem_cons_of_mem c hc')]

theorem resolveChunks_extends {st st' : Store} (hext : Extends st st') :
    ∀ hs bs, resolveChunks st hs = some bs → resolveChunks st' hs = some bs := by
  intro hs
  induction hs with
  | nil => intro bs h; exact h
  | cons h rest ih =>
    intro bs hres
    simp only [resolveChunks] at hres ⊢
    cases hlk : st.lookup h with
    | none => rw [hlk] at hres; cases hres
    | some b =>
      rw [hlk] at hres
      cases hrest : resolveChunks st rest with
      | none => rw [hrest] at hres; cases hres
      | some bs' =>
        rw [hrest] at hres
        rw [hext h b hlk, ih bs' hrest]
        exact hres

/-- Tier 1 of `backup_file`: size and modified-time both match the
previous entry, which is returned verbatim with no store write. -/
theorem backup_file_tier1 (hash : Bytes → String) (chunkSize : Nat) (name : String)
    (content : Bytes) (modified : Int) (p : FileEntry) (st : Store)
    (hm : p.modified = modified) (hs : p.size = content.length) :
    backup_file hash chunkSize name content modified (some p) st = (p, st) := by
  simp [backup_file, hm, hs]

/-- Tier 2 of `backup_file`: metadata changed but the whole-file digest
matches, so the previous chunk list is reused with the fresh size and
modified-time, again with no store write. -/
theorem backup_file_tier2 (hash : Bytes → String) (chunkSize : Nat) (name : String)
    (content : Bytes) (modified : Int) (p : FileEntry) (st : Store)
    (hmeta : ¬(p.modified = modified ∧ p.size = content.length))
    (hch : p.content_hash = hash content) :
    backup_file hash chunkSize name content modified (some p) st =
      (⟨name, hash content, p.chunk_hash, content.length, modified⟩, st) := by
  simp [backup_file, hmeta, hch]

/-- Tier 3 of `backup_file` with a previous entry: content changed, so
the file is re-chunked and uploaded. -/
theorem backup_file_tier3 (hash : Bytes → String) (chunkSize : Nat) (name : String)
    (content : Bytes) (modified : Int) (p : FileEntry) (st : Store)
    (hmeta : ¬(p.modified = modified ∧ p.size = content.length))
    (hch : p.content_hash ≠ hash content) :
    backup_file hash chunkSize name content modified (some p) st =
      (⟨name, hash content, (chunks chunkSize content).map hash, content.length, modified⟩,
       (upload_chunks hash (chunks chunkSize content) st).2) := by
  simp [backup_file, hmeta, hch, upload_chunks_fst]

/-- C8: every `FileEntry` that `backup_file` produces satisfies the
data-model invariant in the store it leaves behind — its chunks resolve,
concatenate to exactly `size` bytes, and that concatenation's digest is
`content_hash` — provided the previous entry (when one is reused)
satisfied the invariant and digests are collision-free.  The store stays
hashed and only grows. -/
theorem c8_file_entry_invariant (hash : Bytes → String) (chunkSize : Nat)
    (name : String) (content : Bytes) (modified : Int)
    (prev : Option FileEntry) (st : Store)
    (hinj : Function.Injective hash) (hCS : 0 < chunkSize)
    (hst : StoreHashed hash st)
    (hprev : ∀ p, prev = some p → EntryConsistent hash st p) :
    EntryConsistent hash (backup_file hash chunkSize name content modified prev st).2
      (backup_file hash chunkSize name content modified prev st).1 ∧
    StoreHashed hash (backup_file hash chunkSize name content modified prev st).2 ∧
    Extends st (backup_file hash chunkSize name content modified prev st).2 := by
  have fresh : backup_file hash chunkSize name content modified none st =
      (⟨name, hash content, (chunks chunkSize content).map hash,
        content.length, modified⟩,
       (upload_chunks hash (chunks chunkSize content) st).2) :=
    backup_file_none hash chunkSize name content modified st
  have tier3_consistent :
      ∀ e : FileEntry, e.chunk_hash = (chunks chunkSize content).map hash →
        e.size = content.length → e.content_hash = hash content →
        EntryConsistent hash (upload_chunks hash (chunks chunkSize content) st).2 e := by
    intro e hch hsz hcont
    have hpres := upload_chunks_present hash (chunks chunkSize content) st
    have hsh := upload_chunks_hashed hash (chunks chunkSize content) st hst
    have havail : ∀ c ∈ chunks chunkSize content,
        ((upload_chunks hash (chunks chunkSize content) st).2).lookup (hash c) = some c :=
      fun c hc => hashed_lookup hash _ c hsh hinj (hpres c hc)
    refine ⟨chunks chunkSize content, ?_, ?_, ?_⟩
    · rw [hch]
      exact resolveChunks_map hash _ _ havail
    · rw [chunks_flatten chunkSize hCS, hsz]
    · rw [chunks_flatten chunkSize hCS, hcont]
  match prev with
  | none =>
    rw [fresh]
    exact ⟨tier3_consistent _ rfl rfl rfl,
      by rw [← fresh]; exact backup_file_none_hashed hash chunkSize name content modified st hst,
      by rw [← fresh]; exact backup_file_none_extends hash chunkSize name content modified st⟩
  | some p =>
    by_cases hmeta : p.modified = modified ∧ p.size = content.length
    · rw [backup_file_tier1 hash chunkSize name content modified p st hmeta.1 hmeta.2]
      exact ⟨hprev p rfl, hst, Extends.refl st⟩
    · by_cases hch : p.content_hash = hash content
      · rw [backup_file_tier2 hash chunkSize name content modified p st hmeta hch]
        obtain ⟨bs, hres, hlen, hdig⟩ := hprev p rfl
        refine ⟨⟨bs, hres, ?_, ?_⟩, hst, Extends.refl st⟩
        · -- the digest match forces the old bytes to be the new content
          have : bs.flatten = content := hinj (by rw [hdig, hch])
          rw [this]
        · rw [hdig, hch]
      · rw [backup_file_tier3 hash chunkSize name content modified p st hmeta hch]
        exact ⟨tier3_consistent _ rfl rfl rfl,
          upload_chunks_hashed hash _ st hst, upload_chunks_extends hash _ st⟩

/-- Witness for C8 on a two-chunk file with no previous entry. -/
theorem c8_file_entry_invariant_witness :
    EntryConsistent witHash
      (backup_file witHash 2 "a" [1, 2, 3] 5 none []).2
      (backup_file witHash 2 "a" [1, 2, 3] 5 none []).1 ∧
    StoreHashed witHash (backup_file witHash 2 "a" [1, 2, 3] 5 none []).2 ∧
    Extends [] (backup_file witHash 2 "a" [1, 2, 3] 5 none []).2 :=
  c8_file_entry_invariant witHash 2 "a" [1, 2, 3] 5 none [] witHash_injective
    (by decide) (storeHashed_nil witHash) (by intro p h; cases h)

theorem chunks_ne_nil (chunkSize : Nat) (content : Bytes) (hne : content ≠ []) :
    chunks chunkSize content ≠ [] := by
  match content with
  | [] => exact absurd rfl hne
  | b :: rest => simp [chunks, chunksAux]

/-- C9 (amended): the three ordered change-detection tiers of
`backup_file`.  Tier 1: matching size and modified-time reuse the
previous entry verbatim, no store write.  Tier 2: matching whole-file
digest reuses the previous chunk list with the fresh size and
modified-time, no store write.  Tier 3: changed content records the new
digest and the per-window digests and performs a store write for every
window (duplicates absorbed) — at least one window exists whenever the
new content is nonempty (a file truncated to zero bytes uploads
nothing). -/
theorem c9_change_detection_tiers (hash : Bytes → String) (chunkSize : Nat)
    (name : String) (content : Bytes) (modified : Int) (p : FileEntry) (st : Store) :
    (p.modified = modified → p.size = content.length →
      backup_file hash chunkSize name content modified (some p) st = (p, st)) ∧
    (¬(p.modified = modified ∧ p.size = content.length) →
      p.content_hash = hash content →
      backup_file hash chunkSize name content modified (some p) st =
        (⟨name, hash content, p.chunk_hash, content.length, modified⟩, st)) ∧
    (¬(p.modified = modified ∧ p.size = content.length) →
      p.content_hash ≠ hash content →
      (backup_file hash chunkSize name content modified (some p) st).1 =
        ⟨name, hash content, (chunks chunkSize content).map hash,
          content.length, modified⟩ ∧
      (∀ c ∈ chunks chunkSize content,
        (((backup_file hash chunkSize name content modified (some p) st).2).lookup
          (hash c)).isSome) ∧
      (content ≠ [] →
        (backup_file hash chunkSize name content modified (some p) st).1.chunk_hash ≠ [])) := by
  refine ⟨fun hm hs => backup_file_tier1 hash chunkSize name content modified p st hm hs,
    fun hmeta hch => backup_file_tier2 hash chunkSize name content modified p st hmeta hch,
    fun hmeta hch => ?_⟩
  rw [backup_file_tier3 hash chunkSize name content modified p st hmeta hch]
  refine ⟨rfl, upload_chunks_present hash _ st, fun hne => ?_⟩
  simpa using chunks_ne_nil chunkSize content hne

/-- Witness for C9's tiers on concrete inputs (tier 1 with a matching
previous entry). -/
theorem c9_change_detection_tiers_witness :
    backup_file witHash 4 "a" [9] 3 (some ⟨"a", witHash [9], ["k1"], 1, 3⟩) [] =
      (⟨"a", witHash [9], ["k1"], 1, 3⟩, []) :=
  (c9_change_detection_tiers witHash 4 "a" [9] 3 ⟨"a", witHash [9], ["k1"], 1, 3⟩ []).1
    (by decide) (by decide)

/-- C9 counterexample to the claim as stated: truncating a previously
backed-up one-byte file to zero bytes changes its content and produces a
fresh `content_hash`, yet the chunk list is empty and no chunk write at
all happens (the store is untouched) — "at least one chunk write" fails. -/
theorem c9_counterexample :
    backup_file witHash 4 "a" [] 5 (some ⟨"a", witHash [7], [witHash [7]], 1, 5⟩) [] =
      (⟨"a", witHash [], [], 0, 5⟩, []) ∧
    witHash [] ≠ witHash [7] := by
  decide

/-- C10: a zero-byte file backs up to a `FileEntry` with an empty chunk
list, size 0 and the digest of the empty byte string, with no store
write; restoring that entry into an empty target writes a zero-byte
file stamped with the recorded modified-time. -/
theorem c10_empty_file (hash : Bytes → String) (chunkSize : Nat) (name : String)
    (modified : Int) (st : Store) (args : RestoreArgs) :
    backup_file hash chunkSize name [] modified none st =
      (⟨name, hash [], [], 0, modified⟩, st) ∧
    restore_file args ⟨name, hash [], [], 0, modified⟩ none st =
      .ok (.written ⟨[], modified⟩) := by
  constructor
  · have := backup_file_none hash chunkSize name [] modified st
    simpa [chunks, chunksAux, upload_chunks] using this
  · simp [restore_file, existing_matches, read_chunks]

/-- C2: evaluation at the failing input. The `OpenOptions` branches of
`restore_file` are swapped relative to the flag's meaning: with
overwriting allowed (`no_override_files` unset) the file is opened
create-new, so restoring over an existing differing file fails with a
`System` open error instead of truncating and succeeding; with
`no_override_files` set, an absent file is opened create+truncate
rather than create-new. -/
theorem c2_open_options_swapped :
    restore_open_options ⟨false, false⟩ = ⟨false, true⟩ ∧
    restore_open_options ⟨false, true⟩ = ⟨true, false⟩ ∧
    restore_file ⟨false, false⟩ ⟨"f", "h", [], 1, 5⟩ (some ⟨[0, 0], some 7⟩) [] =
      .error .system ∧
    existing_matches ⟨"f", "h", [], 1, 5⟩ (some ⟨[0, 0], some 7⟩) = .doesNotMatch ∧
    restore_file ⟨false, true⟩ ⟨"f", "h", [], 1, 5⟩ (some ⟨[0, 0], some 7⟩) [] =
      .error .fileSystemConflict := by
  decide

/-- C3: evaluation at the failing input. The match check of
`restore_file` uses a conjunction, so an existing file is treated as
matching (and silently skipped) as soon as its size alone agrees with
the entry, even though its modified-time differs. -/
theorem c3_size_only_match_skips :
    existing_matches ⟨"f", "h", ["k"], 3, 10⟩ (some ⟨[1, 2, 3], some 99⟩) = .isMatch ∧
    restore_file ⟨false, false⟩ ⟨"f", "h", ["k"], 3, 10⟩ (some ⟨[1, 2, 3], some 99⟩) [] =
      .ok .skipped ∧
    (99 : Int) ≠ 10 := by
  decide

/-- C4: evaluation at the failing input. Releasing the write handle
after only part of the intended bytes reached the temp file renames the
temp file onto the final path, so a subsequent read observes the
partial bytes; nothing is removed. -/
theorem c4_partial_write_published :
    rename_on_drop "abcde" [1] [] = [("abcde", [1])] ∧
    storage_read [("abcde", [1])] "abcde" = .ok [1] ∧
    ([1] : Bytes) ≠ [1, 2, 3] := by
  decide

/-- C5 counterexample to the claim as stated: the shard of key "abcd"
is its first two characters "ab", not the byte-mixing digest
`xor_byte_hash "abcd" = "0b"`, and the stored filename is the key
remainder "cd", not the whole key; moreover keys differing only after
the second byte share a shard, so the shard does not depend on every
byte. -/
theorem c5_shard_counterexample :
    get_item_path .blob "abcd" = .ok ["blob", "ab", "cd"] ∧
    xor_byte_hash (strBytes "abcd") = "0b" ∧
    ("0b" : String) ≠ "ab" ∧
    get_item_path .blob "abzz" = .ok ["blob", "ab", "zz"] ∧
    xor_byte_hash (strBytes "abzz") ≠ xor_byte_hash (strBytes "abcd") := by
  decide

/-- C5 (amended): for every accepted key (length at least 3) the item
path is `<root>/<collection-name>/<key[0..2]>/<key[2..]>`: the shard is
the key's own first two characters — deterministic, but depending only
on the first two bytes — and the filename is the remainder; shorter
keys are rejected with `InvalidInput`.  (`xor_byte_hash` exists in the
code base but plays no part in sharding.) -/
theorem c5_item_path_layout (collection : Collection) (key : String) :
    (2 < key.length →
      get_item_path collection key =
        .ok (get_collection_path collection ++
          [String.mk (key.toList.take 2), String.mk (key.toList.drop 2)]) ∧
      String.mk (key.toList.take 2) ++ String.mk (key.toList.drop 2) = key ∧
      (String.mk (key.toList.take 2)).length = 2) ∧
    (key.length ≤ 2 → get_item_path collection key = .error .invalidInput) := by
  constructor
  · intro hlen
    refine ⟨?_, ?_, ?_⟩
    · simp [get_item_path, Nat.not_le.mpr hlen]
    · show String.mk (key.toList.take 2 ++ key.toList.drop 2) = key
      rw [List.take_append_drop]
      rfl
    · show (key.toList.take 2).length = 2
      rw [List.length_take]
      have : key.toList.length = key.length := by
        rfl
      omega
  · intro hlen
    simp [get_item_path, hlen]

/-- Witness for C5's amended layout at the key "abcd". -/
theorem c5_item_path_layout_witness :
    get_item_path .blob "abcd" =
      .ok (get_collection_path .blob ++
        [String.mk ("abcd".toList.take 2), String.mk ("abcd".toList.drop 2)]) ∧
    String.mk ("abcd".toList.take 2) ++ String.mk ("abcd".toList.drop 2) = "abcd" ∧
    (String.mk ("abcd".toList.take 2)).length = 2 :=
  (c5_item_path_layout .blob "abcd").1 (by decide)

theorem lookup_cons_assoc {β : Type} (k k' : String) (v : β)
    (st : List (String × β)) :
    ((k, v) :: st).lookup k' = if k' = k then some v else st.lookup k' := by
  by_cases h : k' = k
  · subst h
    simp [List.lookup]
  · have hb : (k' == k) = false := beq_eq_false_iff_ne.mpr h
    simp [List.lookup, hb, h]

/-- The running maximum of `get_highest_snapshot_number` dominates its
accumulator and every parsed snapshot number for the archive. -/
theorem get_highest_fold_ge (archive : String) :
    ∀ (items : List String) (acc : Nat),
      acc ≤ items.foldl
        (fun highest name =>
          match split_slash name with
          | [a, num] =>
            if a ≠ archive then highest
            else
              match parse_u32 num with
              | some n => max highest n
              | none => highest
          | _ => highest) acc ∧
      (∀ name ∈ items, ∀ num n, split_slash name = [archive, num] →
        parse_u32 num = some n →
        n ≤ items.foldl
          (fun highest name =>
            match split_slash name with
            | [a, num] =>
              if a ≠ archive then highest
              else
                match parse_u32 num with
                | some n => max highest n
                | none => highest
            | _ => highest) acc) := by
  intro items
  induction items with
  | nil => exact fun acc => ⟨Nat.le_refl acc, fun name h => absurd h (List.not_mem_nil name)⟩
  | cons name rest ih =>
    intro acc
    constructor
    · refine le_trans ?_ (ih _).1
      cases hsp : split_slash name with
      | nil => simp [hsp]
      | cons a parts =>
        cases parts with
        | nil => simp [hsp]
        | cons num parts2 =>
          cases parts2 with
          | nil =>
            by_cases ha : a = archive
            · subst ha
              cases hpn : parse_u32 num with
              | none => simp [hsp, hpn]
              | some n => simp [hsp, hpn, le_max_left]
            · simp [hsp, ha]
          | cons x xs => simp [hsp]
    · intro nm hnm num n hsp hpn
      rcases List.mem_cons.mp hnm with rfl | hnm
      · refine le_trans ?_ (ih _).1
        simp only [List.foldl_cons, hsp, ite_not, if_pos rfl, hpn]
        exact le_max_right acc n
      · exact (ih _).2 nm hnm num n hsp hpn

/-- C6: snapshot numbering.  The registration attempt writes the key
`<archive>/<highest+1>` (no `u32` wrap below the bound); that number
strictly exceeds every parseable number currently present for the
archive (0 when none exists, so numbering starts at 1); and the
snapshot collection is write-once — a successful write proves the key
was absent and makes it present, so a second write of the same key,
against that store or any extension of it, fails with `AlreadyExists`.
Hence two runs, concurrent ones included, can never both register one
number. -/
theorem c6_snapshot_numbering (archive : String) (items : List String)
    (hbound : get_highest_snapshot_number archive items < 4294967295) :
    next_snapshot_key archive items =
      archive ++ "/" ++ Nat.repr (get_highest_snapshot_number archive items + 1) ∧
    (∀ name ∈ items, ∀ num n, split_slash name = [archive, num] →
      parse_u32 num = some n →
      n < get_highest_snapshot_number archive items + 1) ∧
    (∀ (st : SnapStore) (k : String) (v : Snapshot) (st' : SnapStore),
      snapshot_write st k v = .ok st' →
        st.lookup k = none ∧ st'.lookup k = some v) ∧
    (∀ (st st' : SnapStore) (k : String) (v v' : Snapshot),
      snapshot_write st k v = .ok st' →
        ∀ st₂ : SnapStore, (∀ k₂ v₂, st'.lookup k₂ = some v₂ → st₂.lookup k₂ = some v₂) →
          snapshot_write st₂ k v' = .error .alreadyExists) := by
  refine ⟨?_, ?_, ?_, ?_⟩
  · unfold next_snapshot_key
    rw [Nat.mod_eq_of_lt (by omega)]
  · intro name hname num n hsp hpn
    have := (get_highest_fold_ge archive items 0).2 name hname num n hsp hpn
    unfold get_highest_snapshot_number
    omega
  · intro st k v st' hw
    unfold snapshot_write at hw
    by_cases hk : (st.lookup k).isSome
    · rw [if_pos hk] at hw
      cases hw
    · rw [if_neg hk] at hw
      refine ⟨Option.not_isSome_iff_eq_none.mp hk, ?_⟩
      cases hw
      simp [lookup_cons_assoc]
  · intro st st' k v v' hw st₂ hext
    unfold snapshot_write at hw
    by_cases hk : (st.lookup k).isSome
    · rw [if_pos hk] at hw
      cases hw
    · rw [if_neg hk] at hw
      cases hw
      have hk' : (((k, v) :: st : SnapStore).lookup k) = some v := by
        simp [lookup_cons_assoc]
      have h2 := hext k v hk'
      unfold snapshot_write
      rw [if_pos (by rw [h2]; rfl)]

/-- Witness for C6 on a concrete snapshot listing (numbers 1 and 2
present, one malformed key, one foreign archive). -/
theorem c6_snapshot_numbering_witness :
    next_snapshot_key "arch" ["arch/1", "bad", "arch/2", "other/9"] =
      "arch" ++ "/" ++ Nat.repr
        (get_highest_snapshot_number "arch" ["arch/1", "bad", "arch/2", "other/9"] + 1) :=
  (c6_snapshot_numbering "arch" ["arch/1", "bad", "arch/2", "other/9"] (by decide)).1

/-- C7 helper: full characterization of the bounded retry loop from any
starting attempt index with any remaining budget. -/
theorem register_snapshot_aux_spec (outcome : Nat → WriteOutcome) :
    ∀ (fuel start : Nat),
      (∀ i, register_snapshot_aux outcome fuel start = .complete i →
        outcome i = .ok ∧ start ≤ i ∧ i < start + fuel ∧
        ∀ j, start ≤ j → j < i → outcome j = .alreadyExists) ∧
      (∀ i, register_snapshot_aux outcome fuel start = .fatalWrite i →
        outcome i = .otherErr ∧ start ≤ i ∧ i < start + fuel ∧
        ∀ j, start ≤ j → j < i → outcome j = .alreadyExists) ∧
      ((∀ i, start ≤ i → i < start + fuel → outcome i = .alreadyExists) →
        register_snapshot_aux outcome fuel start = .retryBudgetExhausted) := by
  intro fuel
  induction fuel with
  | zero =>
    intro start
    refine ⟨?_, ?_, fun _ => rfl⟩
    · intro i h; cases h
    · intro i h; cases h
  | succ fuel ih =>
    intro start
    refine ⟨?_, ?_, ?_⟩
    · intro i h
      simp only [register_snapshot_aux] at h
      cases hout : outcome start with
      | ok =>
        rw [hout] at h
        cases h
        exact ⟨hout, Nat.le_refl _, by omega, fun j hj1 hj2 => absurd hj2 (by omega)⟩
      | alreadyExists =>
        rw [hout] at h
        obtain ⟨h1, h2, h3, h4⟩ := (ih (start + 1)).1 i h
        refine ⟨h1, by omega, by omega, ?_⟩
        intro j hj1 hj2
        rcases Nat.lt_or_ge j (start + 1) with hj | hj
        · have : j = start := by omega
          subst this
          exact hout
        · exact h4 j hj hj2
      | otherErr =>
        rw [hout] at h
        cases h
    · intro i h
      simp only [register_snapshot_aux] at h
      cases hout : outcome start with
      | ok =>
        rw [hout] at h
        cases h
      | alreadyExists =>
        rw [hout] at h
        obtain ⟨h1, h2, h3, h4⟩ := (ih (start + 1)).2.1 i h
        refine ⟨h1, by omega, by omega, ?_⟩
        intro j hj1 hj2
        rcases Nat.lt_or_ge j (start + 1) with hj | hj
        · have : j = start := by omega
          subst this
          exact hout
        · exact h4 j hj hj2
      | otherErr =>
        rw [hout] at h
        cases h
        exact ⟨hout, Nat.le_refl _, by omega, fun j hj1 hj2 => absurd hj2 (by omega)⟩
    · intro hall
      simp only [register_snapshot_aux]
      rw [hall start (Nat.le_refl _) (by omega)]
      exact (ih (start + 1)).2.2 fun i h1 h2 => hall i (by omega) (by omega)

/-- C7: the registration loop retries only on `AlreadyExists`, for at
most `MAX_LOOP_ITERATIONS = 100` attempts; any other write failure is
fatal at the attempt where it occurs (every earlier attempt having hit
`AlreadyExists`); registering succeeds only at an attempt whose write
reports success; and a full budget of `AlreadyExists` answers exhausts
the loop into the `Program`-kind failure. -/
theorem c7_retry_budget (outcome : Nat → WriteOutcome) :
    (∀ i, register_snapshot outcome = .complete i →
      outcome i = .ok ∧ i < MAX_LOOP_ITERATIONS ∧
      ∀ j < i, outcome j = .alreadyExists) ∧
    (∀ i, register_snapshot outcome = .fatalWrite i →
      outcome i = .otherErr ∧ i < MAX_LOOP_ITERATIONS ∧
      ∀ j < i, outcome j = .alreadyExists) ∧
    ((∀ i < MAX_LOOP_ITERATIONS, outcome i = .alreadyExists) →
      register_snapshot outcome = .retryBudgetExhausted) := by
  obtain ⟨h1, h2, h3⟩ := register_snapshot_aux_spec outcome MAX_LOOP_ITERATIONS 0
  refine ⟨?_, ?_, ?_⟩
  · intro i h
    obtain ⟨ha, _, hb, hc⟩ := h1 i h
    exact ⟨ha, by omega, fun j hj => hc j (Nat.zero_le j) hj⟩
  · intro i h
    obtain ⟨ha, _, hb, hc⟩ := h2 i h
    exact ⟨ha, by omega, fun j hj => hc j (Nat.zero_le j) hj⟩
  · intro hall
    exact h3 fun i _ h2' => hall i (by omega)

/-- Witness for C7: with two conflicts followed by a success, the loop
completes at attempt 2, both earlier attempts having seen
`AlreadyExists`. -/
theorem c7_retry_budget_witness :
    (fun i => if i < 2 then WriteOutcome.alreadyExists else WriteOutcome.ok) 2 =
        WriteOutcome.ok ∧
      2 < MAX_LOOP_ITERATIONS ∧
      ∀ j < 2, (fun i => if i < 2 then WriteOutcome.alreadyExists
        else WriteOutcome.ok) j = WriteOutcome.alreadyExists :=
  (c7_retry_budget (fun i => if i < 2 then WriteOutcome.alreadyExists
    else WriteOutcome.ok)).1 2 (by decide)
